import Mathlib

/-!
Shallow embedding of the ranking engine of the event-score-ranker repository.

Two implementations of `calculateStudentScores` coexist in the sources:

* `src/src/utils/scoreCalculations.ts` — the "Spearman" variant, which sorts each
  judge's scores descending and runs an index-based loop assigning
  `rankSum / (tiedStudents + 1)` to tied entries (fractional tie handling);
* `src/unnamed/part_006` (first file) — the "General" variant, which groups equal
  scores and assigns the same integer rank to a whole group, advancing the rank
  pointer past the group.

JavaScript `number`s are modelled as `ℚ` (all arithmetic performed by the engine is
sums and divisions of input values).  JavaScript objects keyed by student / judge id
strings are modelled as association lists in insertion order with last-write-wins
updates (`upsert`), matching the enumeration order of string-keyed JS objects for the
non-numeric uuid keys the application uses.  `Array.prototype.sort` with the numeric
comparators used by the sources is a stable sort, modelled by `List.insertionSort`
with the corresponding total preorder.
-/

/-- `Student` from `src/src/types.ts`. -/
structure Student where
  id : String
  name : String
deriving DecidableEq

/-- `Score` from `src/src/types.ts`. -/
structure Score where
  studentId : String
  judgeId : String
  value : ℚ
deriving DecidableEq

/-- `JudgeRank` interface of `scoreCalculations.ts` / `part_006`. -/
structure JudgeRank where
  judgeId : String
  judgeName : String
  rank : ℚ
deriving DecidableEq

/-- `StudentResult` interface of `scoreCalculations.ts` / `part_006`
(`student` is flattened into the two id/name fields; `totalRank` is the sum of
per-judge ranks and `rank` the final overall rank). -/
structure StudentResult where
  studentId : String
  studentName : String
  totalScore : ℚ
  averageScore : ℚ
  judgeRanks : List JudgeRank
  totalRank : ℚ
  rank : ℚ
deriving DecidableEq

/-- `[...new Set(scores.map(score => score.judgeId))]`: judge ids in first-occurrence
order, deduplicated. -/
def uniqueJudges (scores : List Score) : List String :=
  scores.foldl (fun acc s => if s.judgeId ∈ acc then acc else acc ++ [s.judgeId]) []

/-- JS object assignment `obj[k] = v` on a string-keyed object: the key keeps its
first-insertion position, the value is overwritten. -/
def upsert (m : List (String × ℚ)) (k : String) (v : ℚ) : List (String × ℚ) :=
  match m with
  | [] => [(k, v)]
  | p :: rest => if p.1 = k then (k, v) :: rest else p :: upsert rest k v

/-- JS object read `obj[k]` as an `Option`. -/
def alookup (m : List (String × ℚ)) (k : String) : Option ℚ :=
  match m with
  | [] => none
  | p :: rest => if p.1 = k then some p.2 else alookup rest k

/-- `judgeScores[judgeId]` after the `scores.forEach` population loop: the scores with
this `judgeId`, in order, written studentId ↦ value (later writes win). -/
def judgeScoreMap (scores : List Score) (j : String) : List (String × ℚ) :=
  (scores.filter (fun s => s.judgeId = j)).foldl (fun m s => upsert m s.studentId s.value) []

/-- Comparator `(a, b) => b.score - a.score`: `a` precedes `b` iff `b.score ≤ a.score`
(descending, stable on ties). -/
def scoreDesc (a b : String × ℚ) : Prop := b.2 ≤ a.2

instance : DecidableRel scoreDesc := fun a b => inferInstanceAs (Decidable (b.2 ≤ a.2))

instance : IsTotal (String × ℚ) scoreDesc := ⟨fun a b => le_total b.2 a.2⟩

instance : IsTrans (String × ℚ) scoreDesc := ⟨fun _ _ _ h1 h2 => le_trans h2 h1⟩

/-- `scoreArray.sort((a, b) => b.score - a.score)` (stable descending sort). -/
def sortedScoreArray (m : List (String × ℚ)) : List (String × ℚ) :=
  List.insertionSort scoreDesc m

/-- The Spearman per-judge rank-assignment loop of `scoreCalculations.ts`
(lines 72-100), processing the descending-sorted score array with 0-based index `i`
and mutable state `currentRank`, `previousScore`, `tiedStudents`, `rankSum`.
Each branch updates the state exactly as the source does and records the rank
`tiedStudents > 0 ? rankSum / (tiedStudents + 1) : currentRank` computed from the
updated state. -/
def rankLoop : List (String × ℚ) → ℕ → ℚ → Option ℚ → ℕ → ℚ → List (String × ℚ)
  | [], _, _, _, _, _ => []
  | (sid, sc) :: rest, i, currentRank, previousScore, tiedStudents, rankSum =>
    match previousScore with
    | none =>
      (sid, if 0 < tiedStudents then rankSum / ((tiedStudents : ℚ) + 1) else currentRank) ::
        rankLoop rest (i + 1) currentRank (some sc) tiedStudents rankSum
    | some p =>
      if sc < p then
        (sid, ((i : ℚ) + 1)) ::
          rankLoop rest (i + 1) ((i : ℚ) + 1) (some sc) 0 ((i : ℚ) + 1)
      else if sc = p then
        (sid, (rankSum + ((i : ℚ) + 1)) / (((tiedStudents + 1 : ℕ) : ℚ) + 1)) ::
          rankLoop rest (i + 1) currentRank (some sc) (tiedStudents + 1)
            (rankSum + ((i : ℚ) + 1))
      else
        (sid, if 0 < tiedStudents then rankSum / ((tiedStudents : ℚ) + 1) else currentRank) ::
          rankLoop rest (i + 1) currentRank (some sc) tiedStudents rankSum

/-- `judgeRanks[judgeId]` of `scoreCalculations.ts`: the loop started on the
descending-sorted score array with `currentRank = 1`, `previousScore = null`,
`tiedStudents = 0`, `rankSum = 0`. -/
def judgeRanksFor (scores : List Score) (j : String) : List (String × ℚ) :=
  rankLoop (sortedScoreArray (judgeScoreMap scores j)) 0 1 none 0 0

/-- `judgeRanks[judgeId]?.[student.id] || 0` (the computed ranks are ≥ 1, so the JS
falsy-default coincides with `Option.getD 0`). -/
def judgeRankValue (scores : List Score) (j sid : String) : ℚ :=
  (alookup (judgeRanksFor scores j) sid).getD 0

/-- The body of `students.map(student => ...)` shared by both variants, parameterized
by the per-judge rank read `rankOf judgeId studentId`.  `judgeName` is the judge id in
both sources (the Spearman file's `judgeNamesMap` is never populated, so
`judgeNamesMap[judgeId] || judgeId` is the id). -/
def resultForWith (scores : List Score) (judges : List String)
    (rankOf : String → String → ℚ) (st : Student) : StudentResult :=
  let matching := scores.filter (fun s => s.studentId = st.id)
  let totalScore := (matching.map Score.value).sum
  let averageScore := if 0 < matching.length then totalScore / (matching.length : ℚ) else 0
  let judgeRankArray := judges.map (fun j => JudgeRank.mk j j (rankOf j st.id))
  StudentResult.mk st.id st.name totalScore averageScore judgeRankArray
    ((judgeRankArray.map JudgeRank.rank).sum) 0

/-- The `results` list of `scoreCalculations.ts` before final ranks are assigned. -/
def resultsPre (students : List Student) (scores : List Score) : List StudentResult :=
  students.map (resultForWith scores (uniqueJudges scores) (judgeRankValue scores))

/-- Comparator `(a, b) => a.totalRank - b.totalRank` (ascending, stable). -/
def resultAsc (a b : StudentResult) : Prop := a.totalRank ≤ b.totalRank

instance : DecidableRel resultAsc := fun a b => inferInstanceAs (Decidable (a.totalRank ≤ b.totalRank))

instance : IsTotal StudentResult resultAsc := ⟨fun a b => le_total a.totalRank b.totalRank⟩

instance : IsTrans StudentResult resultAsc := ⟨fun _ _ _ h1 h2 => le_trans h1 h2⟩

/-- `results[results.findIndex(r => r.student.id === sid)].rank = v` — update the
rank of the first result whose student id matches (no-op when none matches). -/
def setRankFirst (l : List StudentResult) (sid : String) (v : ℚ) : List StudentResult :=
  match l with
  | [] => []
  | r :: rest =>
    if r.studentId = sid then { r with rank := v } :: rest else r :: setRankFirst rest sid v

/-- The final-rank loop of `scoreCalculations.ts` (lines 137-163) over the
`totalRank`-ascending sorted results, with the same mutable state pattern as
`rankLoop` (`previousRankSum`, strict increase opens a new rank), writing each
computed rank into the accumulated `results` list via `findIndex`. -/
def finalLoop : List StudentResult → ℕ → ℚ → Option ℚ → ℕ → ℚ → List StudentResult → List StudentResult
  | [], _, _, _, _, _, acc => acc
  | res :: rest, i, currentRank, previousRankSum, tiedStudents, rankSum, acc =>
    match previousRankSum with
    | none =>
      finalLoop rest (i + 1) currentRank (some res.totalRank) tiedStudents rankSum
        (setRankFirst acc res.studentId
          (if 0 < tiedStudents then rankSum / ((tiedStudents : ℚ) + 1) else currentRank))
    | some p =>
      if p < res.totalRank then
        finalLoop rest (i + 1) ((i : ℚ) + 1) (some res.totalRank) 0 ((i : ℚ) + 1)
          (setRankFirst acc res.studentId ((i : ℚ) + 1))
      else if res.totalRank = p then
        finalLoop rest (i + 1) currentRank (some res.totalRank) (tiedStudents + 1)
          (rankSum + ((i : ℚ) + 1))
          (setRankFirst acc res.studentId
            ((rankSum + ((i : ℚ) + 1)) / (((tiedStudents + 1 : ℕ) : ℚ) + 1)))
      else
        finalLoop rest (i + 1) currentRank (some res.totalRank) tiedStudents rankSum
          (setRankFirst acc res.studentId
            (if 0 < tiedStudents then rankSum / ((tiedStudents : ℚ) + 1) else currentRank))

/-- `calculateStudentScores` of `src/src/utils/scoreCalculations.ts` (Spearman). -/
def calculateStudentScores (students : List Student) (scores : List Score) : List StudentResult :=
  finalLoop (List.insertionSort resultAsc (resultsPre students scores)) 0 1 none 0 0
    (resultsPre students scores)

/-- Distinct values of a list in first-occurrence order (JS object key collection
before the explicit numeric re-sort both variants apply). -/
def distinctVals (l : List ℚ) : List ℚ :=
  l.foldl (fun acc v => if v ∈ acc then acc else acc ++ [v]) []

/-- Comparator `(scoreA, scoreB) => Number(scoreB) - Number(scoreA)` on group keys. -/
def valDesc (a b : ℚ) : Prop := b ≤ a

instance : DecidableRel valDesc := fun a b => inferInstanceAs (Decidable (b ≤ a))

instance : IsTotal ℚ valDesc := ⟨fun a b => le_total b a⟩

instance : IsTrans ℚ valDesc := ⟨fun _ _ _ h1 h2 => le_trans h2 h1⟩

/-- Comparator `(rankSumA, rankSumB) => Number(rankSumA) - Number(rankSumB)`. -/
def valAsc (a b : ℚ) : Prop := a ≤ b

instance : DecidableRel valAsc := fun a b => inferInstanceAs (Decidable (a ≤ b))

instance : IsTotal ℚ valAsc := ⟨fun a b => le_total a b⟩

instance : IsTrans ℚ valAsc := ⟨fun _ _ _ h1 h2 => le_trans h1 h2⟩

/-- The General per-judge group loop of `part_006` (lines 70-82): for each distinct
score value in descending order, every member of the group gets `currentRank`, and
the pointer advances past the group (`currentRank += studentIds.length`). -/
def generalRankLoop (arr : List (String × ℚ)) : List ℚ → ℕ → List (String × ℚ)
  | [], _ => []
  | v :: vs, currentRank =>
    let grp := arr.filter (fun p => p.2 = v)
    grp.map (fun p => (p.1, (currentRank : ℚ))) ++
      generalRankLoop arr vs (currentRank + grp.length)

/-- `judgeRanks[judgeId]` of `part_006`: group the sorted score array by value
(`scoreGroups`), sort the group keys descending, then run the group loop. -/
def generalJudgeRanksFor (scores : List Score) (j : String) : List (String × ℚ) :=
  generalRankLoop (sortedScoreArray (judgeScoreMap scores j))
    (List.insertionSort valDesc
      (distinctVals ((sortedScoreArray (judgeScoreMap scores j)).map Prod.snd))) 1

/-- `judgeRanks[judgeId]?.[student.id] || 0` in `part_006`. -/
def generalJudgeRankValue (scores : List Score) (j sid : String) : ℚ :=
  (alookup (generalJudgeRanksFor scores j) sid).getD 0

/-- The `results` list of `part_006` before final ranks are assigned. -/
def generalResultsPre (students : List Student) (scores : List Score) : List StudentResult :=
  students.map (resultForWith scores (uniqueJudges scores) (generalJudgeRankValue scores))

/-- Assign rank `v` to every listed student id (`studentsInGroup.forEach` body of
`part_006`). -/
def assignGroup (acc : List StudentResult) (ids : List String) (v : ℚ) : List StudentResult :=
  ids.foldl (fun a sid => setRankFirst a sid v) acc

/-- The final-rank group loop of `part_006` (lines 127-142): for each distinct
`totalRank` in ascending order, every result in the group gets `currentRank`, and the
pointer advances past the group. -/
def generalFinalGo (results0 : List StudentResult) : List ℚ → ℕ → List StudentResult → List StudentResult
  | [], _, acc => acc
  | v :: vs, currentRank, acc =>
    generalFinalGo results0 vs (currentRank + (results0.filter (fun r => r.totalRank = v)).length)
      (assignGroup acc ((results0.filter (fun r => r.totalRank = v)).map StudentResult.studentId)
        (currentRank : ℚ))

/-- `calculateStudentScores` of `src/unnamed/part_006` (General). -/
def generalCalculateStudentScores (students : List Student) (scores : List Score) : List StudentResult :=
  generalFinalGo (generalResultsPre students scores)
    (List.insertionSort valAsc
      (distinctVals ((generalResultsPre students scores).map StudentResult.totalRank)))
    1 (generalResultsPre students scores)


/-- Claim C1 (code_bug evidence): on the spec scenario (participants A, B, C, judges
J1, J2, scores A/J1=90, B/J1=90, C/J1=80, A/J2=70, B/J2=60, C/J2=60) the Spearman
implementation produces per-judge ranks J1: A=1, B=1, C=3 and J2: A=1, B=2, C=5/2,
rank sums A=2, B=3, C=11/2, and final ranks A=1, B=2, C=3 — not the fractional
per-judge ranks 1.5/1.5 and 2.5/2.5 and rank sums 2.5/4.0 claimed by the spec. -/
theorem spearman_scenario_eval :
    (calculateStudentScores
      [Student.mk "A" "A", Student.mk "B" "B", Student.mk "C" "C"]
      [Score.mk "A" "J1" 90, Score.mk "B" "J1" 90, Score.mk "C" "J1" 80,
       Score.mk "A" "J2" 70, Score.mk "B" "J2" 60, Score.mk "C" "J2" 60]).map
      (fun r => (r.studentId, r.totalRank, r.rank))
      = [("A", 2, 1), ("B", 3, 2), ("C", 11/2, 3)]
    ∧ judgeRankValue
      [Score.mk "A" "J1" 90, Score.mk "B" "J1" 90, Score.mk "C" "J1" 80,
       Score.mk "A" "J2" 70, Score.mk "B" "J2" 60, Score.mk "C" "J2" 60] "J1" "A" = 1
    ∧ judgeRankValue
      [Score.mk "A" "J1" 90, Score.mk "B" "J1" 90, Score.mk "C" "J1" 80,
       Score.mk "A" "J2" 70, Score.mk "B" "J2" 60, Score.mk "C" "J2" 60] "J1" "B" = 1
    ∧ judgeRankValue
      [Score.mk "A" "J1" 90, Score.mk "B" "J1" 90, Score.mk "C" "J1" 80,
       Score.mk "A" "J2" 70, Score.mk "B" "J2" 60, Score.mk "C" "J2" 60] "J1" "C" = 3
    ∧ judgeRankValue
      [Score.mk "A" "J1" 90, Score.mk "B" "J1" 90, Score.mk "C" "J1" 80,
       Score.mk "A" "J2" 70, Score.mk "B" "J2" 60, Score.mk "C" "J2" 60] "J2" "A" = 1
    ∧ judgeRankValue
      [Score.mk "A" "J1" 90, Score.mk "B" "J1" 90, Score.mk "C" "J1" 80,
       Score.mk "A" "J2" 70, Score.mk "B" "J2" 60, Score.mk "C" "J2" 60] "J2" "B" = 2
    ∧ judgeRankValue
      [Score.mk "A" "J1" 90, Score.mk "B" "J1" 90, Score.mk "C" "J1" 80,
       Score.mk "A" "J2" 70, Score.mk "B" "J2" 60, Score.mk "C" "J2" 60] "J2" "C" = 5/2 := by
  have hJ1 : judgeRanksFor
      [Score.mk "A" "J1" 90, Score.mk "B" "J1" 90, Score.mk "C" "J1" 80,
       Score.mk "A" "J2" 70, Score.mk "B" "J2" 60, Score.mk "C" "J2" 60] "J1"
      = [("A", 1), ("B", 1), ("C", 3)] := by
    norm_num [judgeRanksFor, judgeScoreMap, sortedScoreArray, rankLoop, upsert, scoreDesc]
  have hJ2 : judgeRanksFor
      [Score.mk "A" "J1" 90, Score.mk "B" "J1" 90, Score.mk "C" "J1" 80,
       Score.mk "A" "J2" 70, Score.mk "B" "J2" 60, Score.mk "C" "J2" 60] "J2"
      = [("A", 1), ("B", 2), ("C", 5/2)] := by
    norm_num [judgeRanksFor, judgeScoreMap, sortedScoreArray, rankLoop, upsert, scoreDesc]
  have hU : uniqueJudges
      [Score.mk "A" "J1" 90, Score.mk "B" "J1" 90, Score.mk "C" "J1" 80,
       Score.mk "A" "J2" 70, Score.mk "B" "J2" 60, Score.mk "C" "J2" 60] = ["J1", "J2"] := by
    simp [uniqueJudges]
  have hPre : resultsPre
      [Student.mk "A" "A", Student.mk "B" "B", Student.mk "C" "C"]
      [Score.mk "A" "J1" 90, Score.mk "B" "J1" 90, Score.mk "C" "J1" 80,
       Score.mk "A" "J2" 70, Score.mk "B" "J2" 60, Score.mk "C" "J2" 60]
      = [StudentResult.mk "A" "A" 160 80
          [JudgeRank.mk "J1" "J1" 1, JudgeRank.mk "J2" "J2" 1] 2 0,
         StudentResult.mk "B" "B" 150 75
          [JudgeRank.mk "J1" "J1" 1, JudgeRank.mk "J2" "J2" 2] 3 0,
         StudentResult.mk "C" "C" 140 70
          [JudgeRank.mk "J1" "J1" 3, JudgeRank.mk "J2" "J2" (5/2)] (11/2) 0] := by
    simp [resultsPre, resultForWith, hU, judgeRankValue, hJ1, hJ2, alookup]
    norm_num
  refine ⟨?_, ?_, ?_, ?_, ?_, ?_, ?_⟩
  · simp only [calculateStudentScores, hPre]
    repeat (first
      | norm_num [finalLoop, setRankFirst, resultAsc]
      | simp [finalLoop, setRankFirst, resultAsc])
  all_goals simp [judgeRankValue, hJ1, hJ2, alookup]
  all_goals norm_num

/-- Claim C2 (code_bug evidence): with a single judge J and scores A=70, B=60, C=60,
the per-judge score map records the tie B=C=60, yet the Spearman loop assigns B rank 2
and C rank 5/2 — tied participants receive different ranks, and B's rank is not the
tie-group mean 5/2 promised by the source's own "use average rank" comment. -/
theorem spearman_tie_rank_eval :
    judgeScoreMap [Score.mk "A" "J" 70, Score.mk "B" "J" 60, Score.mk "C" "J" 60] "J"
      = [("A", 70), ("B", 60), ("C", 60)]
    ∧ judgeRankValue [Score.mk "A" "J" 70, Score.mk "B" "J" 60, Score.mk "C" "J" 60] "J" "B" = 2
    ∧ judgeRankValue [Score.mk "A" "J" 70, Score.mk "B" "J" 60, Score.mk "C" "J" 60] "J" "C"
      = 5/2 := by
  have hm : judgeScoreMap [Score.mk "A" "J" 70, Score.mk "B" "J" 60, Score.mk "C" "J" 60] "J"
      = [("A", 70), ("B", 60), ("C", 60)] := by
    simp [judgeScoreMap, upsert]
  have hr : judgeRanksFor [Score.mk "A" "J" 70, Score.mk "B" "J" 60, Score.mk "C" "J" 60] "J"
      = [("A", 1), ("B", 2), ("C", 5/2)] := by
    norm_num [judgeRanksFor, judgeScoreMap, sortedScoreArray, rankLoop, upsert, scoreDesc]
  refine ⟨hm, ?_, ?_⟩ <;> simp [judgeRankValue, hr, alookup] <;> norm_num

/-- Claim C3 counterexample: participants D, A, B, C with judges J1, J2 where A and B
tie on rankSum 5 at cumulative positions 2 and 3.  The skip-rank rule of the claim
requires both A and B to receive finalRank 2, but the implementation assigns A the
rank 2 and B the rank 5/2. -/
theorem spearman_final_skiprank_counterexample :
    (calculateStudentScores
      [Student.mk "D" "D", Student.mk "A" "A", Student.mk "B" "B", Student.mk "C" "C"]
      [Score.mk "D" "J1" 100, Score.mk "A" "J1" 90, Score.mk "B" "J1" 80, Score.mk "C" "J1" 70,
       Score.mk "D" "J2" 100, Score.mk "A" "J2" 80, Score.mk "B" "J2" 90, Score.mk "C" "J2" 70]).map
      (fun r => (r.studentId, r.totalRank, r.rank))
      = [("D", 2, 1), ("A", 5, 2), ("B", 5, 5/2), ("C", 8, 4)] := by
  have hJ1 : judgeRanksFor
      [Score.mk "D" "J1" 100, Score.mk "A" "J1" 90, Score.mk "B" "J1" 80, Score.mk "C" "J1" 70,
       Score.mk "D" "J2" 100, Score.mk "A" "J2" 80, Score.mk "B" "J2" 90, Score.mk "C" "J2" 70] "J1"
      = [("D", 1), ("A", 2), ("B", 3), ("C", 4)] := by
    norm_num [judgeRanksFor, judgeScoreMap, sortedScoreArray, rankLoop, upsert, scoreDesc]
  have hJ2 : judgeRanksFor
      [Score.mk "D" "J1" 100, Score.mk "A" "J1" 90, Score.mk "B" "J1" 80, Score.mk "C" "J1" 70,
       Score.mk "D" "J2" 100, Score.mk "A" "J2" 80, Score.mk "B" "J2" 90, Score.mk "C" "J2" 70] "J2"
      = [("D", 1), ("B", 2), ("A", 3), ("C", 4)] := by
    norm_num [judgeRanksFor, judgeScoreMap, sortedScoreArray, rankLoop, upsert, scoreDesc]
  have hU : uniqueJudges
      [Score.mk "D" "J1" 100, Score.mk "A" "J1" 90, Score.mk "B" "J1" 80, Score.mk "C" "J1" 70,
       Score.mk "D" "J2" 100, Score.mk "A" "J2" 80, Score.mk "B" "J2" 90, Score.mk "C" "J2" 70]
      = ["J1", "J2"] := by
    simp [uniqueJudges]
  have hPre : resultsPre
      [Student.mk "D" "D", Student.mk "A" "A", Student.mk "B" "B", Student.mk "C" "C"]
      [Score.mk "D" "J1" 100, Score.mk "A" "J1" 90, Score.mk "B" "J1" 80, Score.mk "C" "J1" 70,
       Score.mk "D" "J2" 100, Score.mk "A" "J2" 80, Score.mk "B" "J2" 90, Score.mk "C" "J2" 70]
      = [StudentResult.mk "D" "D" 200 100
          [JudgeRank.mk "J1" "J1" 1, JudgeRank.mk "J2" "J2" 1] 2 0,
         StudentResult.mk "A" "A" 170 85
          [JudgeRank.mk "J1" "J1" 2, JudgeRank.mk "J2" "J2" 3] 5 0,
         StudentResult.mk "B" "B" 170 85
          [JudgeRank.mk "J1" "J1" 3, JudgeRank.mk "J2" "J2" 2] 5 0,
         StudentResult.mk "C" "C" 140 70
          [JudgeRank.mk "J1" "J1" 4, JudgeRank.mk "J2" "J2" 4] 8 0] := by
    simp [resultsPre, resultForWith, hU, judgeRankValue, hJ1, hJ2, alookup]
    norm_num
  simp only [calculateStudentScores, hPre]
  repeat (first
    | norm_num [finalLoop, setRankFirst, resultAsc]
    | simp [finalLoop, setRankFirst, resultAsc])

/-- Claim C4 counterexample: under the General method with one judge and scores
A=90, B=90, C=80, participants A and B tie on rankSum 1 and C forms the next distinct
rankSum group.  Dense ranking would give C finalRank 2, but the implementation
advances the rank pointer past the tied group and gives C finalRank 3. -/
theorem general_final_dense_counterexample :
    (generalCalculateStudentScores
      [Student.mk "A" "A", Student.mk "B" "B", Student.mk "C" "C"]
      [Score.mk "A" "J1" 90, Score.mk "B" "J1" 90, Score.mk "C" "J1" 80]).map
      (fun r => (r.studentId, r.totalRank, r.rank))
      = [("A", 1, 1), ("B", 1, 1), ("C", 3, 3)] := by
  have harr : sortedScoreArray (judgeScoreMap
      [Score.mk "A" "J1" 90, Score.mk "B" "J1" 90, Score.mk "C" "J1" 80] "J1")
      = [("A", 90), ("B", 90), ("C", 80)] := by
    norm_num [judgeScoreMap, sortedScoreArray, upsert, scoreDesc]
  have hr : generalJudgeRanksFor
      [Score.mk "A" "J1" 90, Score.mk "B" "J1" 90, Score.mk "C" "J1" 80] "J1"
      = [("A", 1), ("B", 1), ("C", 3)] := by
    simp only [generalJudgeRanksFor, harr]
    repeat (first
      | simp [generalRankLoop, distinctVals, valDesc]
      | norm_num [generalRankLoop, distinctVals, valDesc])
  have hU : uniqueJudges [Score.mk "A" "J1" 90, Score.mk "B" "J1" 90, Score.mk "C" "J1" 80]
      = ["J1"] := by
    simp [uniqueJudges]
  have hPre : generalResultsPre
      [Student.mk "A" "A", Student.mk "B" "B", Student.mk "C" "C"]
      [Score.mk "A" "J1" 90, Score.mk "B" "J1" 90, Score.mk "C" "J1" 80]
      = [StudentResult.mk "A" "A" 90 90 [JudgeRank.mk "J1" "J1" 1] 1 0,
         StudentResult.mk "B" "B" 90 90 [JudgeRank.mk "J1" "J1" 1] 1 0,
         StudentResult.mk "C" "C" 80 80 [JudgeRank.mk "J1" "J1" 3] 3 0] := by
    simp only [generalResultsPre, resultForWith, hU, List.map]
    simp only [generalJudgeRankValue]
    simp only [hr]
    repeat (first | simp [alookup] | norm_num)
  simp only [generalCalculateStudentScores, hPre]
  repeat (first
    | simp [generalFinalGo, assignGroup, setRankFirst, distinctVals, valAsc]
    | norm_num [generalFinalGo, assignGroup, setRankFirst, distinctVals, valAsc])

/-- Claim C5 counterexample: participant B is scored by zero judges (the only score
is A's), yet B's returned per-judge rank sequence is not empty — it has one entry
for judge J carrying rank 0.  The aggregate fields are 0 and B still receives a
final rank (here rank 1, since rankSum 0 sorts lowest). -/
theorem unscored_participant_empty_ranks_counterexample :
    (calculateStudentScores [Student.mk "A" "A", Student.mk "B" "B"]
      [Score.mk "A" "J" 90]).map
      (fun r => (r.studentId, r.judgeRanks, r.totalScore, r.averageScore, r.totalRank, r.rank))
      = [("A", [JudgeRank.mk "J" "J" 1], 90, 90, 1, 2),
         ("B", [JudgeRank.mk "J" "J" 0], 0, 0, 0, 1)] := by
  have hr : judgeRanksFor [Score.mk "A" "J" 90] "J" = [("A", 1)] := by
    norm_num [judgeRanksFor, judgeScoreMap, sortedScoreArray, rankLoop, upsert, scoreDesc]
  have hU : uniqueJudges [Score.mk "A" "J" 90] = ["J"] := by
    simp [uniqueJudges]
  have hPre : resultsPre [Student.mk "A" "A", Student.mk "B" "B"] [Score.mk "A" "J" 90]
      = [StudentResult.mk "A" "A" 90 90 [JudgeRank.mk "J" "J" 1] 1 0,
         StudentResult.mk "B" "B" 0 0 [JudgeRank.mk "J" "J" 0] 0 0] := by
    simp [resultsPre, resultForWith, hU, judgeRankValue, hr, alookup]
  simp only [calculateStudentScores, hPre]
  repeat (first
    | norm_num [finalLoop, setRankFirst, resultAsc]
    | simp [finalLoop, setRankFirst, resultAsc])

section Preservation

variable {α : Type}

/-- Updating the rank of the first matching result leaves every rank-independent
projection of the list unchanged. -/
theorem setRankFirst_map_eq (f : StudentResult → α)
    (hf : ∀ r v, f { r with rank := v } = f r) :
    ∀ (l : List StudentResult) (sid : String) (v : ℚ),
      (setRankFirst l sid v).map f = l.map f := by
  intro l
  induction l with
  | nil => intro sid v; rfl
  | cons r rest ih =>
    intro sid v
    by_cases h : r.studentId = sid
    · subst h
      simp [setRankFirst, hf]
    · simp [setRankFirst, h, ih]

/-- The Spearman final-rank loop only writes rank fields: every rank-independent
projection of the accumulated results is unchanged. -/
theorem finalLoop_map_eq (f : StudentResult → α)
    (hf : ∀ r v, f { r with rank := v } = f r) :
    ∀ (l : List StudentResult) (i : ℕ) (cr : ℚ) (prev : Option ℚ) (ts : ℕ) (rs : ℚ)
      (acc : List StudentResult),
      (finalLoop l i cr prev ts rs acc).map f = acc.map f := by
  intro l
  induction l with
  | nil => intro i cr prev ts rs acc; rfl
  | cons res rest ih =>
    intro i cr prev ts rs acc
    cases prev with
    | none => simp only [finalLoop]; rw [ih, setRankFirst_map_eq f hf]
    | some p =>
      simp only [finalLoop]
      by_cases h1 : p < res.totalRank
      · simp only [if_pos h1]; rw [ih, setRankFirst_map_eq f hf]
      · simp only [if_neg h1]
        by_cases h2 : res.totalRank = p
        · simp only [if_pos h2]; rw [ih, setRankFirst_map_eq f hf]
        · simp only [if_neg h2]; rw [ih, setRankFirst_map_eq f hf]

/-- Assigning a rank to a group of ids only writes rank fields. -/
theorem assignGroup_map_eq (f : StudentResult → α)
    (hf : ∀ r v, f { r with rank := v } = f r) :
    ∀ (ids : List String) (acc : List StudentResult) (v : ℚ),
      (assignGroup acc ids v).map f = acc.map f := by
  intro ids
  induction ids with
  | nil => intro acc v; rfl
  | cons sid rest ih =>
    intro acc v
    simp only [assignGroup, List.foldl_cons]
    have := ih (setRankFirst acc sid v) v
    simp only [assignGroup] at this
    rw [this, setRankFirst_map_eq f hf]

/-- The General final-rank group loop only writes rank fields. -/
theorem generalFinalGo_map_eq (f : StudentResult → α)
    (hf : ∀ r v, f { r with rank := v } = f r) (results0 : List StudentResult) :
    ∀ (vals : List ℚ) (cr : ℕ) (acc : List StudentResult),
      (generalFinalGo results0 vals cr acc).map f = acc.map f := by
  intro vals
  induction vals with
  | nil => intro cr acc; rfl
  | cons v vs ih =>
    intro cr acc
    simp only [generalFinalGo]
    rw [ih, assignGroup_map_eq f hf]

/-- Rank-independent projections of the Spearman output coincide with those of the
pre-final-rank results. -/
theorem calculateStudentScores_map_eq (f : StudentResult → α)
    (hf : ∀ r v, f { r with rank := v } = f r)
    (students : List Student) (scores : List Score) :
    (calculateStudentScores students scores).map f = (resultsPre students scores).map f := by
  simp only [calculateStudentScores]
  rw [finalLoop_map_eq f hf]

/-- Rank-independent projections of the General output coincide with those of the
pre-final-rank results. -/
theorem generalCalculateStudentScores_map_eq (f : StudentResult → α)
    (hf : ∀ r v, f { r with rank := v } = f r)
    (students : List Student) (scores : List Score) :
    (generalCalculateStudentScores students scores).map f
      = (generalResultsPre students scores).map f := by
  simp only [generalCalculateStudentScores]
  rw [generalFinalGo_map_eq f hf]

end Preservation

/-- Claim C10 (confirmed): both implementations return one result per input
participant, in the same order as the input participants list (the output is not
reordered by final rank), with matching ids and names. -/
theorem output_preserves_input_order (students : List Student) (scores : List Score) :
    (calculateStudentScores students scores).map (fun r => (r.studentId, r.studentName))
      = students.map (fun st => (st.id, st.name))
    ∧ (generalCalculateStudentScores students scores).map (fun r => (r.studentId, r.studentName))
      = students.map (fun st => (st.id, st.name))
    ∧ (calculateStudentScores students scores).length = students.length
    ∧ (generalCalculateStudentScores students scores).length = students.length := by
  have hf : ∀ (r : StudentResult) (v : ℚ),
      (fun r => (r.studentId, r.studentName)) { r with rank := v }
        = (fun r => (r.studentId, r.studentName)) r := by
    intro r v; rfl
  have h1 := calculateStudentScores_map_eq (fun r => (r.studentId, r.studentName)) hf
    students scores
  have h2 := generalCalculateStudentScores_map_eq (fun r => (r.studentId, r.studentName)) hf
    students scores
  have hp1 : (resultsPre students scores).map (fun r => (r.studentId, r.studentName))
      = students.map (fun st => (st.id, st.name)) := by
    simp [resultsPre, resultForWith]
  have hp2 : (generalResultsPre students scores).map (fun r => (r.studentId, r.studentName))
      = students.map (fun st => (st.id, st.name)) := by
    simp [generalResultsPre, resultForWith]
  have e1 : (calculateStudentScores students scores).map
      (fun r => (r.studentId, r.studentName)) = students.map (fun st => (st.id, st.name)) :=
    h1.trans hp1
  have e2 : (generalCalculateStudentScores students scores).map
      (fun r => (r.studentId, r.studentName)) = students.map (fun st => (st.id, st.name)) :=
    h2.trans hp2
  refine ⟨e1, e2, ?_, ?_⟩
  · have := congrArg List.length e1
    simpa using this
  · have := congrArg List.length e2
    simpa using this

/-- The totalScore / averageScore fields of every pre-final result follow the
filter-sum-divide recipe of the source, for any per-judge rank reader. -/
theorem totals_map_spec (students : List Student) (scores : List Score)
    (judges : List String) (rankOf : String → String → ℚ) :
    (students.map (resultForWith scores judges rankOf)).map
      (fun r => (r.totalScore, r.averageScore))
      = students.map (fun st =>
          (((scores.filter (fun s => s.studentId = st.id)).map Score.value).sum,
           if (scores.filter (fun s => s.studentId = st.id)).length = 0 then 0
           else ((scores.filter (fun s => s.studentId = st.id)).map Score.value).sum
             / ((scores.filter (fun s => s.studentId = st.id)).length : ℚ))) := by
  rw [List.map_map]
  refine List.map_congr_left ?_
  intro st _
  rcases Nat.eq_zero_or_pos (scores.filter (fun s => s.studentId = st.id)).length with h | h
  · simp [resultForWith, h]
  · simp [resultForWith, h, Nat.pos_iff_ne_zero.mp h]

/-- Spearman totals: outputs carry the filter-sum-divide totals of the input. -/
theorem spearman_totals_spec (students : List Student) (scores : List Score) :
    (calculateStudentScores students scores).map (fun r => (r.totalScore, r.averageScore))
      = students.map (fun st =>
          (((scores.filter (fun s => s.studentId = st.id)).map Score.value).sum,
           if (scores.filter (fun s => s.studentId = st.id)).length = 0 then 0
           else ((scores.filter (fun s => s.studentId = st.id)).map Score.value).sum
             / ((scores.filter (fun s => s.studentId = st.id)).length : ℚ))) := by
  rw [calculateStudentScores_map_eq (fun r => (r.totalScore, r.averageScore))
    (fun r v => rfl) students scores]
  simp only [resultsPre]
  exact totals_map_spec students scores _ _

/-- General totals: outputs carry the filter-sum-divide totals of the input. -/
theorem general_totals_spec (students : List Student) (scores : List Score) :
    (generalCalculateStudentScores students scores).map
      (fun r => (r.totalScore, r.averageScore))
      = students.map (fun st =>
          (((scores.filter (fun s => s.studentId = st.id)).map Score.value).sum,
           if (scores.filter (fun s => s.studentId = st.id)).length = 0 then 0
           else ((scores.filter (fun s => s.studentId = st.id)).map Score.value).sum
             / ((scores.filter (fun s => s.studentId = st.id)).length : ℚ))) := by
  rw [generalCalculateStudentScores_map_eq (fun r => (r.totalScore, r.averageScore))
    (fun r v => rfl) students scores]
  simp only [generalResultsPre]
  exact totals_map_spec students scores _ _

/-- Claim C6 (confirmed): in both implementations, every returned participant's
totalScore is the sum of the values of all Score entries whose studentId matches that
participant, and averageScore is totalScore divided by the number of such entries
(0 when there are none). -/
theorem totals_and_averages_conserved (students : List Student) (scores : List Score) :
    (calculateStudentScores students scores).map (fun r => (r.totalScore, r.averageScore))
      = students.map (fun st =>
          (((scores.filter (fun s => s.studentId = st.id)).map Score.value).sum,
           if (scores.filter (fun s => s.studentId = st.id)).length = 0 then 0
           else ((scores.filter (fun s => s.studentId = st.id)).map Score.value).sum
             / ((scores.filter (fun s => s.studentId = st.id)).length : ℚ)))
    ∧ (generalCalculateStudentScores students scores).map
        (fun r => (r.totalScore, r.averageScore))
      = students.map (fun st =>
          (((scores.filter (fun s => s.studentId = st.id)).map Score.value).sum,
           if (scores.filter (fun s => s.studentId = st.id)).length = 0 then 0
           else ((scores.filter (fun s => s.studentId = st.id)).map Score.value).sum
             / ((scores.filter (fun s => s.studentId = st.id)).length : ℚ))) :=
  ⟨spearman_totals_spec students scores, general_totals_spec students scores⟩

/-- Looking up the key just written returns the new value. -/
theorem alookup_upsert_self (m : List (String × ℚ)) (k : String) (v : ℚ) :
    alookup (upsert m k v) k = some v := by
  induction m with
  | nil => simp [upsert, alookup]
  | cons p rest ih =>
    by_cases h : p.1 = k
    · simp [upsert, h, alookup]
    · simp [upsert, h, alookup, ih]

/-- Writing one key does not change the lookup of another. -/
theorem alookup_upsert_other (m : List (String × ℚ)) (k : String) (v : ℚ) (k' : String)
    (h : k ≠ k') : alookup (upsert m k v) k' = alookup m k' := by
  induction m with
  | nil => simp [upsert, alookup, h]
  | cons p rest ih =>
    by_cases hp : p.1 = k
    · simp [upsert, hp, alookup, h]
    · by_cases hp' : p.1 = k'
      · simp [upsert, hp, alookup, hp', Ne.symm h]
      · simp [upsert, hp, alookup, hp', ih]

/-- Folding score writes over a map resolves duplicate studentIds last-wins: the
lookup returns the value of the last written entry for that key, falling back to the
initial map. -/
theorem alookup_foldl_upsert (l : List Score) :
    ∀ (m : List (String × ℚ)) (sid : String),
      alookup (l.foldl (fun m s => upsert m s.studentId s.value) m) sid
        = match (l.filter (fun s => s.studentId = sid)).getLast? with
          | some s => some s.value
          | none => alookup m sid := by
  induction l with
  | nil => intro m sid; rfl
  | cons x xs ih =>
    intro m sid
    rw [List.foldl_cons, ih]
    by_cases hx : x.studentId = sid
    · subst hx
      rcases hxf : xs.filter (fun s => s.studentId = x.studentId) with _ | ⟨y, ys⟩
      · simp [hxf, List.filter_cons, alookup_upsert_self]
      · rcases hg : (y :: ys).getLast? with _ | s
        · simp at hg
        · simp [hxf, List.filter_cons, List.getLast?_cons_cons, hg]
    · rcases hxf : xs.filter (fun s => s.studentId = sid) with _ | ⟨y, ys⟩
      · simp [hxf, List.filter_cons, hx, alookup_upsert_other _ _ _ _ hx]
      · rcases hg : (y :: ys).getLast? with _ | s
        · simp at hg
        · simp [hxf, List.filter_cons, hx, List.getLast?_cons_cons, hg,
            alookup_upsert_other _ _ _ _ hx]

/-- Claim C9 (confirmed): duplicate (studentId, judgeId) Score entries are resolved
inconsistently — the per-judge score map used for ranking keeps only the value of the
last such entry (later writes overwrite earlier ones), while totalScore sums the
values of every duplicate entry and averageScore divides by the full duplicate-
inclusive count. -/
theorem duplicate_scores_resolution (students : List Student) (scores : List Score)
    (j sid : String) :
    alookup (judgeScoreMap scores j) sid
      = (((scores.filter (fun s => s.judgeId = j)).filter
            (fun s => s.studentId = sid)).getLast?).map Score.value
    ∧ (calculateStudentScores students scores).map (fun r => (r.totalScore, r.averageScore))
      = students.map (fun st =>
          (((scores.filter (fun s => s.studentId = st.id)).map Score.value).sum,
           if (scores.filter (fun s => s.studentId = st.id)).length = 0 then 0
           else ((scores.filter (fun s => s.studentId = st.id)).map Score.value).sum
             / ((scores.filter (fun s => s.studentId = st.id)).length : ℚ))) := by
  constructor
  · rw [judgeScoreMap, alookup_foldl_upsert]
    rcases h : ((scores.filter (fun s => s.judgeId = j)).filter
        (fun s => s.studentId = sid)).getLast? with _ | s
    · rw [h]; rfl
    · rw [h]; rfl
  · exact spearman_totals_spec students scores

/-- A lookup misses exactly when the key is absent from the association list. -/
theorem alookup_eq_none_iff (m : List (String × ℚ)) (k : String) :
    alookup m k = none ↔ k ∉ m.map Prod.fst := by
  induction m with
  | nil => simp [alookup]
  | cons p rest ih =>
    by_cases h : p.1 = k
    · simp [alookup, h]
    · simp [alookup, h, ih, Ne.symm h]

/-- The Spearman rank loop returns ranks for exactly the keys of its input, in
order. -/
theorem rankLoop_map_fst :
    ∀ (l : List (String × ℚ)) (i : ℕ) (cr : ℚ) (prev : Option ℚ) (ts : ℕ) (rs : ℚ),
      (rankLoop l i cr prev ts rs).map Prod.fst = l.map Prod.fst := by
  intro l
  induction l with
  | nil => intro i cr prev ts rs; rfl
  | cons p rest ih =>
    intro i cr prev ts rs
    obtain ⟨sid, sc⟩ := p
    cases prev with
    | none => simp [rankLoop, ih]
    | some q =>
      by_cases h1 : sc < q
      · simp [rankLoop, h1, ih]
      · by_cases h2 : sc = q
        · simp [rankLoop, h1, h2, ih]
        · simp [rankLoop, h1, h2, ih]

/-- A participant that no score mentions is absent from every judge's rank map. -/
theorem alookup_judgeRanksFor_eq_none (scores : List Score) (j sid : String)
    (h : ∀ s ∈ scores, s.studentId ≠ sid) :
    alookup (judgeRanksFor scores j) sid = none := by
  rw [judgeRanksFor, alookup_eq_none_iff, rankLoop_map_fst]
  intro hmem
  have hperm : (sortedScoreArray (judgeScoreMap scores j)).Perm (judgeScoreMap scores j) :=
    List.perm_insertionSort scoreDesc _
  have hmem2 : sid ∈ (judgeScoreMap scores j).map Prod.fst :=
    (hperm.map Prod.fst).mem_iff.mp hmem
  have hnone : alookup (judgeScoreMap scores j) sid = none := by
    rw [judgeScoreMap, alookup_foldl_upsert]
    have : (scores.filter (fun s => s.judgeId = j)).filter (fun s => s.studentId = sid)
        = [] := by
      rw [List.filter_eq_nil_iff]
      intro s hs
      simp only [decide_eq_true_eq]
      exact h s (List.mem_of_mem_filter hs)
    rw [this]
    rfl
  rw [alookup_eq_none_iff] at hnone
  exact hnone hmem2

/-- Claim C5 (amended, confirmed): a participant scored by zero judges is returned
with totalScore 0, averageScore 0, rankSum 0, and one per-judge rank entry of rank 0
for every judge (empty only when there are no judges); the participant is present in
the returned list, whose length always equals the number of participants, so it
participates in the final ranking and no exception is possible (the engine is a total
function). -/
theorem unscored_participant_result (students : List Student) (scores : List Score)
    (r : StudentResult) (hr : r ∈ calculateStudentScores students scores)
    (hz : scores.filter (fun s => s.studentId = r.studentId) = []) :
    r.totalScore = 0 ∧ r.averageScore = 0 ∧ r.totalRank = 0
    ∧ r.judgeRanks.length = (uniqueJudges scores).length
    ∧ (∀ jr ∈ r.judgeRanks, jr.rank = 0)
    ∧ (calculateStudentScores students scores).length = students.length := by
  have hf : ∀ (x : StudentResult) (v : ℚ),
      (fun q => (q.studentId, q.totalScore, q.averageScore, q.judgeRanks, q.totalRank))
        { x with rank := v }
      = (fun q => (q.studentId, q.totalScore, q.averageScore, q.judgeRanks, q.totalRank)) x :=
    fun x v => rfl
  have hmap := calculateStudentScores_map_eq
    (fun q => (q.studentId, q.totalScore, q.averageScore, q.judgeRanks, q.totalRank)) hf
    students scores
  have hmem : (r.studentId, r.totalScore, r.averageScore, r.judgeRanks, r.totalRank)
      ∈ (resultsPre students scores).map
        (fun q => (q.studentId, q.totalScore, q.averageScore, q.judgeRanks, q.totalRank)) := by
    rw [← hmap]
    exact List.mem_map_of_mem _ hr
  rw [resultsPre, List.map_map] at hmem
  obtain ⟨st, _, heq⟩ := List.mem_map.mp hmem
  simp only [Function.comp_apply, resultForWith, Prod.mk.injEq] at heq
  obtain ⟨hid, htot, havg, hjr, htr⟩ := heq
  have hstid : st.id = r.studentId := hid
  have hz' : scores.filter (fun s => s.studentId = st.id) = [] := by
    rw [hstid]; exact hz
  have hnone : ∀ j, judgeRankValue scores j st.id = 0 := by
    intro j
    have habs : ∀ s ∈ scores, s.studentId ≠ st.id := by
      intro s hs
      intro hcontra
      have : s ∈ scores.filter (fun s => s.studentId = st.id) := by
        rw [List.mem_filter]
        exact ⟨hs, by simp [hcontra]⟩
      rw [hz'] at this
      exact absurd this (List.not_mem_nil s)
    rw [judgeRankValue, alookup_judgeRanksFor_eq_none scores j st.id habs]
    rfl
  refine ⟨?_, ?_, ?_, ?_, ?_, ?_⟩
  · rw [← htot, hz']
    rfl
  · rw [← havg, hz']
    rfl
  · rw [← htr]
    apply List.sum_eq_zero
    intro x hx
    rw [List.map_map] at hx
    obtain ⟨j, _, hxeq⟩ := List.mem_map.mp hx
    rw [← hxeq]
    exact hnone j
  · rw [← hjr]
    simp
  · intro jr hjrm
    rw [← hjr] at hjrm
    obtain ⟨j, _, hje⟩ := List.mem_map.mp hjrm
    rw [← hje]
    exact hnone j
  · have hlen := congrArg List.length hmap
    simp only [List.length_map] at hlen
    rw [hlen]
    simp [resultsPre]

theorem unscored_participant_result_witness :
    (StudentResult.mk "B" "B" 0 0 [JudgeRank.mk "J" "J" 0] 0 1).totalScore = 0
    ∧ (StudentResult.mk "B" "B" 0 0 [JudgeRank.mk "J" "J" 0] 0 1).averageScore = 0
    ∧ (StudentResult.mk "B" "B" 0 0 [JudgeRank.mk "J" "J" 0] 0 1).totalRank = 0
    ∧ (StudentResult.mk "B" "B" 0 0 [JudgeRank.mk "J" "J" 0] 0 1).judgeRanks.length
      = (uniqueJudges [Score.mk "A" "J" 90]).length
    ∧ (∀ jr ∈ (StudentResult.mk "B" "B" 0 0 [JudgeRank.mk "J" "J" 0] 0 1).judgeRanks,
        jr.rank = 0)
    ∧ (calculateStudentScores [Student.mk "A" "A", Student.mk "B" "B"]
        [Score.mk "A" "J" 90]).length = 2 := by
  have hrj : judgeRanksFor [Score.mk "A" "J" 90] "J" = [("A", 1)] := by
    norm_num [judgeRanksFor, judgeScoreMap, sortedScoreArray, rankLoop, upsert, scoreDesc]
  have hU : uniqueJudges [Score.mk "A" "J" 90] = ["J"] := by
    simp [uniqueJudges]
  have hPre : resultsPre [Student.mk "A" "A", Student.mk "B" "B"] [Score.mk "A" "J" 90]
      = [StudentResult.mk "A" "A" 90 90 [JudgeRank.mk "J" "J" 1] 1 0,
         StudentResult.mk "B" "B" 0 0 [JudgeRank.mk "J" "J" 0] 0 0] := by
    simp only [resultsPre, resultForWith, hU, List.map]
    simp only [judgeRankValue]
    simp only [hrj]
    repeat (first | simp [alookup] | norm_num)
  have hcalc : calculateStudentScores [Student.mk "A" "A", Student.mk "B" "B"]
      [Score.mk "A" "J" 90]
      = [StudentResult.mk "A" "A" 90 90 [JudgeRank.mk "J" "J" 1] 1 2,
         StudentResult.mk "B" "B" 0 0 [JudgeRank.mk "J" "J" 0] 0 1] := by
    simp only [calculateStudentScores, hPre]
    repeat (first
      | simp [finalLoop, setRankFirst, resultAsc]
      | norm_num [finalLoop, setRankFirst, resultAsc])
  have h := unscored_participant_result [Student.mk "A" "A", Student.mk "B" "B"]
    [Score.mk "A" "J" 90] (StudentResult.mk "B" "B" 0 0 [JudgeRank.mk "J" "J" 0] 0 1)
    (by rw [hcalc]; simp) (by simp)
  exact ⟨h.1, h.2.1, h.2.2.1, h.2.2.2.1, h.2.2.2.2.1, by simpa using h.2.2.2.2.2⟩

/-- The rank the Spearman loop would (re-)assign from its current state:
`tiedStudents > 0 ? rankSum / (tiedStudents + 1) : currentRank`. -/
def rPrev (cr : ℚ) (ts : ℕ) (rs : ℚ) : ℚ :=
  if 0 < ts then rs / ((ts : ℚ) + 1) else cr

/-- Reachable-state invariant of the Spearman rank loop at 0-based index `i`. -/
def RankInv (i : ℕ) (cr : ℚ) (prev : Option ℚ) (ts : ℕ) (rs : ℚ) : Prop :=
  (prev = none → i = 0 ∧ cr = 1 ∧ ts = 0 ∧ rs = 0)
  ∧ ((∃ p, prev = some p) → rPrev cr ts rs ≤ (i : ℚ))
  ∧ (ts = 0 → rs = cr ∨ (rs = 0 ∧ cr = 1))
  ∧ (0 < ts → rs ≤ ((ts : ℚ) + 1) * (i : ℚ))

/-- From any state satisfying the invariant, the ranks emitted by the Spearman loop
are non-decreasing, and the first emitted rank is at least the state's pending rank.
This holds regardless of the input being sorted. -/
theorem rankLoop_chain :
    ∀ (l : List (String × ℚ)) (i : ℕ) (cr : ℚ) (prev : Option ℚ) (ts : ℕ) (rs : ℚ),
      RankInv i cr prev ts rs →
      List.Chain (fun a b => a ≤ b) (rPrev cr ts rs)
        ((rankLoop l i cr prev ts rs).map Prod.snd) := by
  intro l
  induction l with
  | nil =>
    intro i cr prev ts rs _
    simp [rankLoop]
  | cons p rest ih =>
    obtain ⟨sid, sc⟩ := p
    intro i cr prev ts rs hinv
    obtain ⟨h1, h2, h3, h4⟩ := hinv
    have hts1pos : (0 : ℚ) < (ts : ℚ) + 1 := by positivity
    have hts2pos : (0 : ℚ) < (ts : ℚ) + 2 := by positivity
    cases prev with
    | none =>
      obtain ⟨hi, hcr, hts, hrs⟩ := h1 rfl
      subst hi; subst hcr; subst hts; subst hrs
      simp only [rankLoop, List.map_cons]
      refine List.Chain.cons (by simp [rPrev]) ?_
      have hinv' : RankInv 1 1 (some sc) 0 0 := by
        unfold RankInv
        refine ⟨fun h => Option.noConfusion h, ?_, fun _ => Or.inr ⟨rfl, rfl⟩,
          fun h => absurd h (lt_irrefl 0)⟩
        intro _
        simp [rPrev]
      have hc := ih 1 1 (some sc) 0 0 hinv'
      simpa [rPrev] using hc
    | some q =>
      have hle : rPrev cr ts rs ≤ (i : ℚ) := h2 ⟨q, rfl⟩
      have hrsle : rs ≤ ((ts : ℚ) + 1) * (i : ℚ) := by
        rcases Nat.eq_zero_or_pos ts with hts | hts
        · subst hts
          rcases h3 rfl with hrs | ⟨hrs, hcr⟩
          · have : cr ≤ (i : ℚ) := by simpa [rPrev] using hle
            rw [hrs]
            nlinarith
          · rw [hrs]
            nlinarith [Nat.cast_nonneg (α := ℚ) i]
        · have := h4 hts
          exact this
      simp only [rankLoop, List.map_cons]
      by_cases hlt : sc < q
      · simp only [if_pos hlt, List.map_cons]
        refine List.Chain.cons ?_ ?_
        · exact le_trans hle (by linarith)
        · have hinv' : RankInv (i + 1) ((i : ℚ) + 1) (some sc) 0 ((i : ℚ) + 1) := by
            refine ⟨fun h => Option.noConfusion h, ?_, fun _ => Or.inl rfl,
              fun h => absurd h (lt_irrefl 0)⟩
            intro _
            simp only [rPrev, if_neg (lt_irrefl 0)]
            push_cast
            linarith
          have hc := ih (i + 1) ((i : ℚ) + 1) (some sc) 0 ((i : ℚ) + 1) hinv'
          simpa [rPrev] using hc
      · by_cases heq : sc = q
        · simp only [if_neg hlt, if_pos heq, List.map_cons]
          have hkey : rs ≤ ((ts : ℚ) + 1) * ((i : ℚ) + 1) := by
            nlinarith [Nat.cast_nonneg (α := ℚ) ts]
          refine List.Chain.cons ?_ ?_
          · rcases Nat.eq_zero_or_pos ts with hts | hts
            · subst hts
              rcases h3 rfl with hrs | ⟨hrs, hcr⟩
              · have hcri : cr ≤ (i : ℚ) := by simpa [rPrev] using hle
                rw [hrs]
                simp only [rPrev, if_neg (lt_irrefl 0)]
                rw [le_div_iff₀ (by push_cast; norm_num)]
                push_cast
                nlinarith
              · have hcri : cr ≤ (i : ℚ) := by simpa [rPrev] using hle
                rw [hrs, hcr]
                simp only [rPrev, if_neg (lt_irrefl 0)] at hcri ⊢
                rw [le_div_iff₀ (by push_cast; norm_num)]
                push_cast
                nlinarith
            · have hpr : rPrev cr ts rs = rs / ((ts : ℚ) + 1) := by
                simp [rPrev, hts]
              rw [hpr, div_le_div_iff₀ hts1pos (by push_cast; positivity)]
              push_cast
              nlinarith [h4 hts]
          · have hinv' : RankInv (i + 1) cr (some sc) (ts + 1) (rs + ((i : ℚ) + 1)) := by
              refine ⟨fun h => Option.noConfusion h, ?_, fun h => Nat.noConfusion h, ?_⟩
              · intro _
                have : 0 < ts + 1 := Nat.succ_pos ts
                simp only [rPrev, if_pos this]
                rw [div_le_iff₀ (by push_cast; positivity)]
                push_cast
                nlinarith
              · intro _
                push_cast
                nlinarith
            have hc := ih (i + 1) cr (some sc) (ts + 1) (rs + ((i : ℚ) + 1)) hinv'
            have hpr2 : rPrev cr (ts + 1) (rs + ((i : ℚ) + 1))
                = (rs + ((i : ℚ) + 1)) / (((ts + 1 : ℕ) : ℚ) + 1) := by
              simp [rPrev, Nat.succ_pos]
            rw [hpr2] at hc
            exact hc
        · simp only [if_neg hlt, if_neg heq, List.map_cons]
          refine List.Chain.cons (le_refl _) ?_
          have hinv' : RankInv (i + 1) cr (some sc) ts rs := by
            unfold RankInv
            refine ⟨fun h => Option.noConfusion h, ?_, h3, ?_⟩
            · intro _
              push_cast
              linarith
            · intro hts
              have := h4 hts
              push_cast
              nlinarith [Nat.cast_nonneg (α := ℚ) ts]
          have hc := ih (i + 1) cr (some sc) ts rs hinv'
          exact hc

/-- A successful lookup returns a pair of the list. -/
theorem alookup_mem (m : List (String × ℚ)) (k : String) (v : ℚ)
    (h : alookup m k = some v) : (k, v) ∈ m := by
  induction m with
  | nil => simp [alookup] at h
  | cons p rest ih =>
    by_cases hp : p.1 = k
    · rw [alookup, if_pos hp] at h
      injection h with hv
      have : (k, v) = p := by
        rw [← hp, ← hv]
      rw [this]
      exact List.mem_cons_self p rest
    · rw [alookup, if_neg hp] at h
      exact List.mem_cons_of_mem _ (ih h)

/-- With duplicate-free keys, membership determines the lookup. -/
theorem alookup_of_mem_nodup (m : List (String × ℚ)) (k : String) (v : ℚ)
    (hnd : (m.map Prod.fst).Nodup) (h : (k, v) ∈ m) : alookup m k = some v := by
  induction m with
  | nil => cases h
  | cons p rest ih =>
    rcases List.mem_cons.mp h with heq | hmem
    · rw [← heq]
      simp [alookup]
    · have hk : k ∈ rest.map Prod.fst := by
        exact List.mem_map_of_mem Prod.fst hmem
      have hp : p.1 ≠ k := by
        intro hcontra
        rw [List.map_cons, List.nodup_cons] at hnd
        exact hnd.1 (hcontra ▸ hk)
      rw [alookup, if_neg hp]
      rw [List.map_cons, List.nodup_cons] at hnd
      exact ih hnd.2 hmem

/-- The keys after a write are the old keys plus possibly the written key. -/
theorem mem_map_fst_upsert (m : List (String × ℚ)) (k : String) (v : ℚ) (x : String) :
    x ∈ (upsert m k v).map Prod.fst ↔ x ∈ m.map Prod.fst ∨ x = k := by
  induction m with
  | nil => simp [upsert]
  | cons p rest ih =>
    by_cases hp : p.1 = k
    · simp [upsert, hp]
      tauto
    · simp [upsert, hp, ih]
      tauto

/-- Writes preserve duplicate-freeness of the keys. -/
theorem upsert_keys_nodup (m : List (String × ℚ)) (k : String) (v : ℚ)
    (h : (m.map Prod.fst).Nodup) : ((upsert m k v).map Prod.fst).Nodup := by
  induction m with
  | nil => simp [upsert]
  | cons p rest ih =>
    rw [List.map_cons, List.nodup_cons] at h
    by_cases hp : p.1 = k
    · simp only [upsert, if_pos hp, List.map_cons, List.nodup_cons]
      exact ⟨hp ▸ h.1, h.2⟩
    · simp only [upsert, if_neg hp, List.map_cons, List.nodup_cons]
      refine ⟨?_, ih h.2⟩
      intro hcontra
      rcases (mem_map_fst_upsert rest k v p.1).mp hcontra with hmem | heq
      · exact h.1 hmem
      · exact hp heq

/-- The per-judge score map never has duplicate student keys. -/
theorem judgeScoreMap_keys_nodup (scores : List Score) (j : String) :
    ((judgeScoreMap scores j).map Prod.fst).Nodup := by
  rw [judgeScoreMap]
  have : ∀ (l : List Score) (m : List (String × ℚ)), (m.map Prod.fst).Nodup →
      (((l.foldl (fun m s => upsert m s.studentId s.value) m)).map Prod.fst).Nodup := by
    intro l
    induction l with
    | nil => intro m hm; exact hm
    | cons s rest ih =>
      intro m hm
      rw [List.foldl_cons]
      exact ih _ (upsert_keys_nodup m s.studentId s.value hm)
  exact this _ [] (by simp)

/-- The ranks emitted by a judge's Spearman rank loop are non-decreasing along the
sorted order. -/
theorem judgeRanksFor_snd_pairwise (scores : List Score) (j : String) :
    ((judgeRanksFor scores j).map Prod.snd).Pairwise (fun a b => a ≤ b) := by
  have h0 : RankInv 0 1 none 0 0 := by
    unfold RankInv
    refine ⟨fun _ => ⟨rfl, rfl, rfl, rfl⟩, ?_, fun _ => Or.inr ⟨rfl, rfl⟩,
      fun h => absurd h (lt_irrefl 0)⟩
    rintro ⟨p, hp⟩
    exact Option.noConfusion hp
  have hchain := rankLoop_chain (sortedScoreArray (judgeScoreMap scores j)) 0 1 none 0 0 h0
  have hpw := hchain.pairwise
  exact hpw.of_cons

/-- Claim C7 (confirmed): for a single judge, a participant with a strictly greater
recorded score value receives a per-judge rank that is less than or equal to (in
fact, the proof shows the ranks are ordered along the sorted positions) the rank of a
participant with a smaller value. -/
theorem spearman_perjudge_rank_monotone (scores : List Score) (j A B : String)
    (va vb : ℚ)
    (hA : alookup (judgeScoreMap scores j) A = some va)
    (hB : alookup (judgeScoreMap scores j) B = some vb)
    (hv : vb < va) :
    judgeRankValue scores j A ≤ judgeRankValue scores j B := by
  have hperm : (sortedScoreArray (judgeScoreMap scores j)).Perm (judgeScoreMap scores j) :=
    List.perm_insertionSort scoreDesc _
  have hmnd : ((judgeScoreMap scores j).map Prod.fst).Nodup := judgeScoreMap_keys_nodup scores j
  have hLnd : ((sortedScoreArray (judgeScoreMap scores j)).map Prod.fst).Nodup :=
    ((hperm.map Prod.fst).nodup_iff).mpr hmnd
  have hAmem : (A, va) ∈ sortedScoreArray (judgeScoreMap scores j) :=
    hperm.mem_iff.mpr (alookup_mem _ A va hA)
  have hBmem : (B, vb) ∈ sortedScoreArray (judgeScoreMap scores j) :=
    hperm.mem_iff.mpr (alookup_mem _ B vb hB)
  obtain ⟨iA, hiAlt, hiA⟩ := List.mem_iff_getElem.mp hAmem
  obtain ⟨iB, hiBlt, hiB⟩ := List.mem_iff_getElem.mp hBmem
  have hsorted : (sortedScoreArray (judgeScoreMap scores j)).Pairwise scoreDesc :=
    List.sorted_insertionSort scoreDesc _
  have hij : iA < iB := by
    rcases lt_trichotomy iA iB with h | h | h
    · exact h
    · exfalso
      have : (A, va) = (B, vb) := by
        rw [← hiA, ← hiB]
        congr 1
      have hveq : va = vb := congrArg Prod.snd this
      rw [hveq] at hv
      exact lt_irrefl vb hv
    · exfalso
      have := List.pairwise_iff_getElem.mp hsorted iB iA hiBlt hiAlt h
      rw [hiA, hiB] at this
      have : va ≤ vb := this
      linarith
  have hRfst : (judgeRanksFor scores j).map Prod.fst
      = (sortedScoreArray (judgeScoreMap scores j)).map Prod.fst := by
    rw [judgeRanksFor]
    exact rankLoop_map_fst _ 0 1 none 0 0
  have hRnd : ((judgeRanksFor scores j).map Prod.fst).Nodup := by
    rw [hRfst]; exact hLnd
  have hRlen : (judgeRanksFor scores j).length
      = (sortedScoreArray (judgeScoreMap scores j)).length := by
    have := congrArg List.length hRfst
    simpa using this
  have hiA2 : iA < (judgeRanksFor scores j).length := by rw [hRlen]; exact hiAlt
  have hiB2 : iB < (judgeRanksFor scores j).length := by rw [hRlen]; exact hiBlt
  have hiAm : iA < ((judgeRanksFor scores j).map Prod.fst).length := by
    simpa using hiA2
  have hiBm : iB < ((judgeRanksFor scores j).map Prod.fst).length := by
    simpa using hiB2
  have hkeyA : ((judgeRanksFor scores j).get ⟨iA, hiA2⟩).1 = A := by
    have h1 := List.getElem_of_eq hRfst hiAm
    simp only [List.getElem_map] at h1
    rw [List.get_eq_getElem]
    rw [h1, hiA]
  have hkeyB : ((judgeRanksFor scores j).get ⟨iB, hiB2⟩).1 = B := by
    have h1 := List.getElem_of_eq hRfst hiBm
    simp only [List.getElem_map] at h1
    rw [List.get_eq_getElem]
    rw [h1, hiB]
  have hAR : alookup (judgeRanksFor scores j) A
      = some (((judgeRanksFor scores j).get ⟨iA, hiA2⟩).2) := by
    apply alookup_of_mem_nodup _ _ _ hRnd
    have : (A, ((judgeRanksFor scores j).get ⟨iA, hiA2⟩).2)
        = (judgeRanksFor scores j).get ⟨iA, hiA2⟩ := by
      rw [← hkeyA]
    rw [this]
    exact List.get_mem _ _ _
  have hBR : alookup (judgeRanksFor scores j) B
      = some (((judgeRanksFor scores j).get ⟨iB, hiB2⟩).2) := by
    apply alookup_of_mem_nodup _ _ _ hRnd
    have : (B, ((judgeRanksFor scores j).get ⟨iB, hiB2⟩).2)
        = (judgeRanksFor scores j).get ⟨iB, hiB2⟩ := by
      rw [← hkeyB]
    rw [this]
    exact List.get_mem _ _ _
  have hpw := judgeRanksFor_snd_pairwise scores j
  have hle := List.pairwise_iff_getElem.mp hpw iA iB (by simpa using hiA2)
    (by simpa using hiB2) hij
  simp only [List.getElem_map] at hle
  rw [judgeRankValue, judgeRankValue, hAR, hBR]
  simp only [Option.getD_some]
  simpa [List.get_eq_getElem] using hle

theorem spearman_perjudge_rank_monotone_witness :
    judgeRankValue [Score.mk "A" "J" 90, Score.mk "B" "J" 80] "J" "A"
      ≤ judgeRankValue [Score.mk "A" "J" 90, Score.mk "B" "J" 80] "J" "B" :=
  spearman_perjudge_rank_monotone [Score.mk "A" "J" 90, Score.mk "B" "J" 80] "J" "A" "B"
    90 80 (by simp [judgeScoreMap, upsert, alookup]) (by simp [judgeScoreMap, upsert, alookup])
    (by norm_num)

/-- Writing a different student's rank preserves a per-student rank fact. -/
theorem setRankFirst_rank_preserve (sid : String) (v : ℚ) (sid2 : String) (x : ℚ)
    (hne : sid2 ≠ sid) :
    ∀ (acc : List StudentResult),
      (∀ r ∈ acc, r.studentId = sid → r.rank = v) →
      ∀ r ∈ setRankFirst acc sid2 x, r.studentId = sid → r.rank = v := by
  intro acc
  induction acc with
  | nil => intro _ r hr; cases hr
  | cons a rest ih =>
    intro h r hr hrid
    by_cases ha : a.studentId = sid2
    · rw [setRankFirst, if_pos ha] at hr
      rcases List.mem_cons.mp hr with heq | hmem
      · exfalso
        rw [heq] at hrid
        exact hne (ha ▸ hrid)
      · exact h r (List.mem_cons_of_mem a hmem) hrid
    · rw [setRankFirst, if_neg ha] at hr
      rcases List.mem_cons.mp hr with heq | hmem
      · exact h r (heq ▸ List.mem_cons_self a rest) hrid
      · exact ih (fun q hq => h q (List.mem_cons_of_mem a hq)) r hmem hrid

/-- With duplicate-free ids, after writing a student's rank every entry carrying that
id has exactly the written rank. -/
theorem setRankFirst_rank_establish (sid : String) (v : ℚ) :
    ∀ (acc : List StudentResult), (acc.map StudentResult.studentId).Nodup →
      ∀ r ∈ setRankFirst acc sid v, r.studentId = sid → r.rank = v := by
  intro acc
  induction acc with
  | nil => intro _ r hr; cases hr
  | cons a rest ih =>
    intro hnd r hr hrid
    rw [List.map_cons, List.nodup_cons] at hnd
    by_cases ha : a.studentId = sid
    · rw [setRankFirst, if_pos ha] at hr
      rcases List.mem_cons.mp hr with heq | hmem
      · rw [heq]
      · exfalso
        apply hnd.1
        rw [ha, ← hrid]
        exact List.mem_map_of_mem StudentResult.studentId hmem
    · rw [setRankFirst, if_neg ha] at hr
      rcases List.mem_cons.mp hr with heq | hmem
      · exfalso
        rw [heq] at hrid
        exact ha hrid
      · exact ih hnd.2 r hmem hrid

/-- The final-rank loop preserves a per-student rank fact when the student does not
occur in the remaining sorted list. -/
theorem finalLoop_rank_preserve (sid : String) (v : ℚ) :
    ∀ (l : List StudentResult) (i : ℕ) (cr : ℚ) (prev : Option ℚ) (ts : ℕ) (rs : ℚ)
      (acc : List StudentResult),
      (∀ res ∈ l, res.studentId ≠ sid) →
      (∀ r ∈ acc, r.studentId = sid → r.rank = v) →
      ∀ r ∈ finalLoop l i cr prev ts rs acc, r.studentId = sid → r.rank = v := by
  intro l
  induction l with
  | nil => intro i cr prev ts rs acc _ hacc; exact hacc
  | cons x rest ih =>
    intro i cr prev ts rs acc hl hacc
    have hx : x.studentId ≠ sid := hl x (List.mem_cons_self x rest)
    have hrest : ∀ res ∈ rest, res.studentId ≠ sid :=
      fun res hres => hl res (List.mem_cons_of_mem x hres)
    cases prev with
    | none =>
      rw [finalLoop]
      exact ih _ _ _ _ _ _ hrest (setRankFirst_rank_preserve sid v _ _ hx acc hacc)
    | some p =>
      rw [finalLoop]
      by_cases h1 : p < x.totalRank
      · rw [if_pos h1]
        exact ih _ _ _ _ _ _ hrest (setRankFirst_rank_preserve sid v _ _ hx acc hacc)
      · rw [if_neg h1]
        by_cases h2 : x.totalRank = p
        · rw [if_pos h2]
          exact ih _ _ _ _ _ _ hrest (setRankFirst_rank_preserve sid v _ _ hx acc hacc)
        · rw [if_neg h2]
          exact ih _ _ _ _ _ _ hrest (setRankFirst_rank_preserve sid v _ _ hx acc hacc)

/-- Core of the amended C3: in the Spearman final loop, the element at relative
index `k` whose totalRank strictly exceeds its predecessor's (or which starts the
loop from the initial state) is assigned final rank `i + k + 1`, and that rank
survives to the returned list. -/
theorem finalLoop_first_of_group :
    ∀ (l : List StudentResult) (k : ℕ) (res : StudentResult) (i : ℕ) (cr : ℚ)
      (prev : Option ℚ) (ts : ℕ) (rs : ℚ) (acc : List StudentResult),
      (l.map StudentResult.studentId).Nodup →
      (acc.map StudentResult.studentId).Nodup →
      l[k]? = some res →
      (k = 0 → (prev = none → i = 0 ∧ ts = 0 ∧ cr = 1)
        ∧ (∀ p, prev = some p → p < res.totalRank)) →
      (∀ k2, k2 + 1 = k → ∀ res2, l[k2]? = some res2 → res2.totalRank < res.totalRank) →
      ∀ r ∈ finalLoop l i cr prev ts rs acc, r.studentId = res.studentId
        → r.rank = ((i + k : ℕ) : ℚ) + 1 := by
  intro l
  induction l with
  | nil => intro k res i cr prev ts rs acc _ _ hres; cases hres
  | cons x rest ih =>
    intro k res i cr prev ts rs acc hndl hndacc hres h0 hprevlt
    have hndx : x.studentId ∉ rest.map StudentResult.studentId := by
      rw [List.map_cons, List.nodup_cons] at hndl
      exact hndl.1
    have hndrest : (rest.map StudentResult.studentId).Nodup := by
      rw [List.map_cons, List.nodup_cons] at hndl
      exact hndl.2
    cases k with
    | zero =>
      have hx : x = res := by
        simpa using hres
      subst hx
      have hrestne : ∀ q ∈ rest, q.studentId ≠ x.studentId := by
        intro q hq hcontra
        exact hndx (hcontra ▸ List.mem_map_of_mem StudentResult.studentId hq)
      cases prev with
      | none =>
        obtain ⟨hi, hts, hcr⟩ := (h0 rfl).1 rfl
        subst hi; subst hts; subst hcr
        rw [finalLoop]
        have hval : (if 0 < (0 : ℕ) then rs / (((0 : ℕ) : ℚ) + 1) else (1 : ℚ)) = 1 := by
          norm_num
        rw [hval]
        have hest := setRankFirst_rank_establish x.studentId 1 acc hndacc
        have := finalLoop_rank_preserve x.studentId 1 rest 1 1 (some x.totalRank) 0 rs
          (setRankFirst acc x.studentId 1) hrestne hest
        intro r hr hid
        have h2 := this r hr hid
        rw [h2]
        norm_num
      | some p =>
        have hp : p < x.totalRank := (h0 rfl).2 p rfl
        rw [finalLoop, if_pos hp]
        have hest := setRankFirst_rank_establish x.studentId ((i : ℚ) + 1) acc hndacc
        have := finalLoop_rank_preserve x.studentId ((i : ℚ) + 1) rest (i + 1) ((i : ℚ) + 1)
          (some x.totalRank) 0 ((i : ℚ) + 1)
          (setRankFirst acc x.studentId ((i : ℚ) + 1)) hrestne hest
        intro r hr hid
        have h2 := this r hr hid
        rw [h2]
        push_cast
        ring
    | succ k2 =>
      have hres2 : rest[k2]? = some res := by
        simpa using hres
      have hlt : k2 = 0 → ∀ p, some x.totalRank = some p → p < res.totalRank := by
        intro hk2 p hp
        injection hp with hp
        rw [← hp]
        exact hprevlt 0 (by omega) x (by simp)
      have hprevlt2 : ∀ k3, k3 + 1 = k2 → ∀ res2, rest[k3]? = some res2
          → res2.totalRank < res.totalRank := by
        intro k3 hk3 res2 hres3
        refine hprevlt (k3 + 1) (by omega) res2 ?_
        simpa using hres3
      have hcast : ∀ (r : StudentResult), r.rank = (((i + 1) + k2 : ℕ) : ℚ) + 1
          → r.rank = ((i + (k2 + 1) : ℕ) : ℚ) + 1 := by
        intro r h
        rw [h]
        congr 1
        push_cast
        ring
      have hndacc2 : ∀ (sid2 : String) (x2 : ℚ),
          ((setRankFirst acc sid2 x2).map StudentResult.studentId).Nodup := by
        intro sid2 x2
        rw [setRankFirst_map_eq (fun r => r.studentId) (fun _ _ => rfl)]
        exact hndacc
      cases prev with
      | none =>
        rw [finalLoop]
        intro r hr hid
        exact hcast r (ih k2 res (i + 1) cr (some x.totalRank) ts rs _ hndrest
          (hndacc2 _ _) hres2
          (fun hk2 => ⟨fun hcontra => Option.noConfusion hcontra, hlt hk2⟩)
          hprevlt2 r hr hid)
      | some p =>
        rw [finalLoop]
        by_cases h1 : p < x.totalRank
        · rw [if_pos h1]
          intro r hr hid
          exact hcast r (ih k2 res (i + 1) ((i : ℚ) + 1) (some x.totalRank) 0 ((i : ℚ) + 1)
            _ hndrest (hndacc2 _ _) hres2
            (fun hk2 => ⟨fun hcontra => Option.noConfusion hcontra, hlt hk2⟩)
            hprevlt2 r hr hid)
        · rw [if_neg h1]
          by_cases h2 : x.totalRank = p
          · rw [if_pos h2]
            intro r hr hid
            exact hcast r (ih k2 res (i + 1) cr (some x.totalRank) (ts + 1)
              (rs + ((i : ℚ) + 1)) _ hndrest (hndacc2 _ _) hres2
              (fun hk2 => ⟨fun hcontra => Option.noConfusion hcontra, hlt hk2⟩)
              hprevlt2 r hr hid)
          · rw [if_neg h2]
            intro r hr hid
            exact hcast r (ih k2 res (i + 1) cr (some x.totalRank) ts rs _ hndrest
              (hndacc2 _ _) hres2
              (fun hk2 => ⟨fun hcontra => Option.noConfusion hcontra, hlt hk2⟩)
              hprevlt2 r hr hid)

/-- Claim C3 (amended, confirmed): under the Spearman method with duplicate-free
participant ids, after stably sorting the results ascending by rankSum, the first
member of each rankSum group — the participant at sorted position k (0-based) whose
rankSum strictly exceeds its predecessor's, or the very first participant — receives
finalRank exactly k + 1, the integer cumulative position of the group.  (Later
members of a tie group are instead given running averages of the tied positions, as
the counterexample shows, so the skip-rank law of the original claim holds only for
each group's first member.) -/
theorem spearman_final_group_first_rank (students : List Student) (scores : List Score)
    (k : ℕ) (res : StudentResult)
    (hnd : (students.map Student.id).Nodup)
    (hres : (List.insertionSort resultAsc (resultsPre students scores))[k]? = some res)
    (hfirst : k = 0 ∨ ∃ res2,
      (List.insertionSort resultAsc (resultsPre students scores))[k - 1]? = some res2
      ∧ res2.totalRank < res.totalRank) :
    ∀ r ∈ calculateStudentScores students scores,
      r.studentId = res.studentId → r.rank = (k : ℚ) + 1 := by
  have hpreids : (resultsPre students scores).map StudentResult.studentId
      = students.map Student.id := by
    simp [resultsPre, resultForWith]
  have hprend : ((resultsPre students scores).map StudentResult.studentId).Nodup := by
    rw [hpreids]; exact hnd
  have hperm : (List.insertionSort resultAsc (resultsPre students scores)).Perm
      (resultsPre students scores) := List.perm_insertionSort resultAsc _
  have hsortnd : ((List.insertionSort resultAsc (resultsPre students scores)).map
      StudentResult.studentId).Nodup :=
    ((hperm.map StudentResult.studentId).nodup_iff).mpr hprend
  intro r hr hid
  rw [calculateStudentScores] at hr
  have h := finalLoop_first_of_group
    (List.insertionSort resultAsc (resultsPre students scores)) k res 0 1 none 0 0
    (resultsPre students scores) hsortnd hprend hres
    (fun _ => ⟨fun _ => ⟨rfl, rfl, rfl⟩, fun p hp => Option.noConfusion hp⟩)
    (fun k2 hk2 res2 hres2 => by
      rcases hfirst with hk0 | ⟨res3, hres3, hlt3⟩
      · omega
      · have : k2 = k - 1 := by omega
        rw [this] at hres2
        rw [hres2] at hres3
        injection hres3 with hres3
        rw [hres3]
        exact hlt3)
    r hr hid
  rw [h]
  push_cast
  ring

theorem spearman_final_group_first_rank_witness :
    (StudentResult.mk "B" "B" 80 80 [JudgeRank.mk "J" "J" 2] 2 2)
      ∈ calculateStudentScores [Student.mk "A" "A", Student.mk "B" "B"]
        [Score.mk "A" "J" 90, Score.mk "B" "J" 80]
    ∧ (StudentResult.mk "B" "B" 80 80 [JudgeRank.mk "J" "J" 2] 2 2).rank = 2 := by
  have hrj : judgeRanksFor [Score.mk "A" "J" 90, Score.mk "B" "J" 80] "J"
      = [("A", 1), ("B", 2)] := by
    norm_num [judgeRanksFor, judgeScoreMap, sortedScoreArray, rankLoop, upsert, scoreDesc]
  have hU : uniqueJudges [Score.mk "A" "J" 90, Score.mk "B" "J" 80] = ["J"] := by
    simp [uniqueJudges]
  have hPre : resultsPre [Student.mk "A" "A", Student.mk "B" "B"]
      [Score.mk "A" "J" 90, Score.mk "B" "J" 80]
      = [StudentResult.mk "A" "A" 90 90 [JudgeRank.mk "J" "J" 1] 1 0,
         StudentResult.mk "B" "B" 80 80 [JudgeRank.mk "J" "J" 2] 2 0] := by
    simp only [resultsPre, resultForWith, hU, List.map]
    simp only [judgeRankValue]
    simp only [hrj]
    repeat (first | simp [alookup] | norm_num)
  have hsort : List.insertionSort resultAsc (resultsPre [Student.mk "A" "A", Student.mk "B" "B"]
      [Score.mk "A" "J" 90, Score.mk "B" "J" 80])
      = [StudentResult.mk "A" "A" 90 90 [JudgeRank.mk "J" "J" 1] 1 0,
         StudentResult.mk "B" "B" 80 80 [JudgeRank.mk "J" "J" 2] 2 0] := by
    rw [hPre]
    repeat (first | simp [resultAsc] | norm_num [resultAsc])
  have hcalc : calculateStudentScores [Student.mk "A" "A", Student.mk "B" "B"]
      [Score.mk "A" "J" 90, Score.mk "B" "J" 80]
      = [StudentResult.mk "A" "A" 90 90 [JudgeRank.mk "J" "J" 1] 1 1,
         StudentResult.mk "B" "B" 80 80 [JudgeRank.mk "J" "J" 2] 2 2] := by
    simp only [calculateStudentScores, hPre]
    repeat (first
      | simp [finalLoop, setRankFirst, resultAsc]
      | norm_num [finalLoop, setRankFirst, resultAsc])
  have h := spearman_final_group_first_rank [Student.mk "A" "A", Student.mk "B" "B"]
    [Score.mk "A" "J" 90, Score.mk "B" "J" 80] 1
    (StudentResult.mk "B" "B" 80 80 [JudgeRank.mk "J" "J" 2] 2 0)
    (by simp)
    (by rw [hsort]; rfl)
    (Or.inr ⟨StudentResult.mk "A" "A" 90 90 [JudgeRank.mk "J" "J" 1] 1 0,
      by rw [hsort]; rfl, by norm_num⟩)
  constructor
  · rw [hcalc]; simp
  · have h2 := h (StudentResult.mk "B" "B" 80 80 [JudgeRank.mk "J" "J" 2] 2 2)
      (by rw [hcalc]; simp) rfl
    rw [h2]
    norm_num

/-- Assigning a group rank to ids other than `sid` preserves a per-student rank
fact. -/
theorem assignGroup_rank_preserve (sid : String) (v : ℚ) :
    ∀ (ids : List String) (acc : List StudentResult) (x : ℚ),
      (∀ id2 ∈ ids, id2 ≠ sid) →
      (∀ r ∈ acc, r.studentId = sid → r.rank = v) →
      ∀ r ∈ assignGroup acc ids x, r.studentId = sid → r.rank = v := by
  intro ids
  induction ids with
  | nil => intro acc x _ hacc; exact hacc
  | cons id2 rest ih =>
    intro acc x hids hacc
    simp only [assignGroup, List.foldl_cons]
    have h1 : ∀ r ∈ setRankFirst acc id2 x, r.studentId = sid → r.rank = v :=
      setRankFirst_rank_preserve sid v id2 x (hids id2 (List.mem_cons_self id2 rest)) acc hacc
    have := ih (setRankFirst acc id2 x) x
      (fun id3 h3 => hids id3 (List.mem_cons_of_mem id2 h3)) h1
    simpa [assignGroup] using this

/-- Assigning a group rank establishes the rank fact for a group member, given
duplicate-free ids. -/
theorem assignGroup_rank_establish (sid : String) :
    ∀ (ids : List String) (acc : List StudentResult) (x : ℚ),
      (acc.map StudentResult.studentId).Nodup → ids.Nodup → sid ∈ ids →
      ∀ r ∈ assignGroup acc ids x, r.studentId = sid → r.rank = x := by
  intro ids
  induction ids with
  | nil => intro acc x _ _ h; cases h
  | cons id2 rest ih =>
    intro acc x hndacc hndids hmem
    simp only [assignGroup, List.foldl_cons]
    rw [List.nodup_cons] at hndids
    rcases List.mem_cons.mp hmem with heq | hmem2
    · subst heq
      have h1 : ∀ r ∈ setRankFirst acc sid x, r.studentId = sid → r.rank = x :=
        setRankFirst_rank_establish sid x acc hndacc
      have := assignGroup_rank_preserve sid x rest (setRankFirst acc sid x) x
        (fun id3 h3 hcontra => hndids.1 (hcontra ▸ h3)) h1
      simpa [assignGroup] using this
    · have hndacc2 : ((setRankFirst acc id2 x).map StudentResult.studentId).Nodup := by
        rw [setRankFirst_map_eq (fun r => r.studentId) (fun _ _ => rfl)]
        exact hndacc
      have := ih (setRankFirst acc id2 x) x hndacc2 hndids.2 hmem2
      simpa [assignGroup] using this

/-- The General final loop preserves a per-student rank fact when the student's
rankSum group is not among the remaining values. -/
theorem generalFinalGo_rank_preserve (results0 : List StudentResult) (sid : String) (v : ℚ) :
    ∀ (vals : List ℚ) (cr : ℕ) (acc : List StudentResult),
      (∀ v2 ∈ vals, ∀ q ∈ results0.filter (fun r => r.totalRank = v2), q.studentId ≠ sid) →
      (∀ r ∈ acc, r.studentId = sid → r.rank = v) →
      ∀ r ∈ generalFinalGo results0 vals cr acc, r.studentId = sid → r.rank = v := by
  intro vals
  induction vals with
  | nil => intro cr acc _ hacc; exact hacc
  | cons v2 vs ih =>
    intro cr acc hvals hacc
    rw [generalFinalGo]
    apply ih
    · intro v3 h3 q hq
      exact hvals v3 (List.mem_cons_of_mem v2 h3) q hq
    · apply assignGroup_rank_preserve sid v
      · intro id2 hid2
        obtain ⟨q, hq, hqid⟩ := List.mem_map.mp hid2
        rw [← hqid]
        exact hvals v2 (List.mem_cons_self v2 vs) q hq
      · exact hacc

/-- Distinct-value collection preserves freedom from duplicates. -/
theorem distinctVals_nodup (l : List ℚ) : (distinctVals l).Nodup := by
  have : ∀ (acc : List ℚ), acc.Nodup →
      (l.foldl (fun acc v => if v ∈ acc then acc else acc ++ [v]) acc).Nodup := by
    induction l with
    | nil => intro acc h; exact h
    | cons x xs ih =>
      intro acc h
      rw [List.foldl_cons]
      by_cases hx : x ∈ acc
      · rw [if_pos hx]
        exact ih acc h
      · rw [if_neg hx]
        apply ih
        simp [List.nodup_append, h, hx]
  exact this [] List.nodup_nil

/-- Distinct-value collection has the same members as its input. -/
theorem mem_distinctVals (l : List ℚ) (x : ℚ) : x ∈ distinctVals l ↔ x ∈ l := by
  have : ∀ (acc : List ℚ),
      (x ∈ l.foldl (fun acc v => if v ∈ acc then acc else acc ++ [v]) acc
        ↔ x ∈ acc ∨ x ∈ l) := by
    induction l with
    | nil => intro acc; simp
    | cons y ys ih =>
      intro acc
      rw [List.foldl_cons]
      by_cases hy : y ∈ acc
      · rw [if_pos hy, ih]
        constructor
        · rintro (h | h)
          · exact Or.inl h
          · exact Or.inr (List.mem_cons_of_mem y h)
        · rintro (h | h)
          · exact Or.inl h
          · rcases List.mem_cons.mp h with heq | hmem
            · exact Or.inl (heq ▸ hy)
            · exact Or.inr hmem
      · rw [if_neg hy, ih]
        simp only [List.mem_append, List.mem_singleton, List.mem_cons]
        tauto
  rw [distinctVals, this []]
  simp

/-- Splitting the tie-group count off a bounded membership count. -/
theorem count_split (results0 : List StudentResult) (v v2 : ℚ) (vs : List ℚ)
    (hvv2 : v < v2) (hvnotvs : v ∉ vs) :
    (results0.filter (fun r => r.totalRank < v2 ∧ r.totalRank ∈ v :: vs)).length
      = (results0.filter (fun r => r.totalRank = v)).length
        + (results0.filter (fun r => r.totalRank < v2 ∧ r.totalRank ∈ vs)).length := by
  induction results0 with
  | nil => rfl
  | cons r rest ih =>
    by_cases h1 : r.totalRank = v
    · have hin : ¬ r.totalRank ∈ vs := by rw [h1]; exact hvnotvs
      simp only [List.filter_cons]
      rw [if_pos (by simp [h1, hvv2]), if_pos (by simp [h1]), if_neg (by simp [hin])]
      simp only [List.length_cons]
      omega
    · by_cases h2 : r.totalRank < v2 ∧ r.totalRank ∈ vs
      · simp only [List.filter_cons]
        rw [if_pos (by simp [h2.1, h2.2]), if_neg (by simp [h1]), if_pos (by simp [h2.1, h2.2])]
        simp only [List.length_cons]
        omega
      · simp only [List.filter_cons]
        rw [if_neg ?hc, if_neg (by simp [h1]), if_neg (by simpa using h2)]
        · exact ih
        case hc =>
          simp only [decide_eq_true_eq, List.mem_cons, not_and, not_or]
          intro hlt
          constructor
          · exact h1
          · intro hcontra
            exact h2 ⟨hlt, hcontra⟩

/-- Core of the amended C4: from a state where the pending rank `cr` equals one plus
the number of results in already-processed (smaller) groups, every member of each
remaining group receives 1 + (number of results with strictly smaller rankSum). -/
theorem generalFinalGo_rank_char (results0 : List StudentResult)
    (hnd0 : (results0.map StudentResult.studentId).Nodup) :
    ∀ (vals : List ℚ) (cr : ℕ) (acc : List StudentResult),
      List.Pairwise (fun a b => a < b) vals →
      (∀ v ∈ vals,
        cr + (results0.filter (fun r => r.totalRank < v ∧ r.totalRank ∈ vals)).length
          = 1 + (results0.filter (fun r => r.totalRank < v)).length) →
      acc.map StudentResult.studentId = results0.map StudentResult.studentId →
      ∀ res0 ∈ results0, res0.totalRank ∈ vals →
      ∀ r ∈ generalFinalGo results0 vals cr acc, r.studentId = res0.studentId →
        r.rank = ((1 + (results0.filter
          (fun x => x.totalRank < res0.totalRank)).length : ℕ) : ℚ) := by
  intro vals
  induction vals with
  | nil => intro cr acc _ _ _ res0 _ h; cases h
  | cons v vs ih =>
    intro cr acc hpw hinv hacc res0 hres0 hres0v
    have hvlt : ∀ w ∈ vs, v < w := fun w hw => List.rel_of_pairwise_cons hpw hw
    have hvnotvs : v ∉ vs := fun hcontra => lt_irrefl v (hvlt v hcontra)
    have hndacc : (acc.map StudentResult.studentId).Nodup := by
      rw [hacc]; exact hnd0
    rcases List.mem_cons.mp hres0v with hv | hvs
    · have hcr : cr = 1 + (results0.filter (fun r => r.totalRank < v)).length := by
        have hempty : results0.filter
            (fun r => r.totalRank < v ∧ r.totalRank ∈ v :: vs) = [] := by
          rw [List.filter_eq_nil_iff]
          intro q _
          simp only [decide_eq_true_eq, List.mem_cons, not_and, not_or]
          intro hlt
          constructor
          · intro hq
            rw [hq] at hlt
            exact lt_irrefl v hlt
          · intro hq
            exact absurd hlt (not_lt_of_lt (hvlt q.totalRank hq))
        have := hinv v (List.mem_cons_self v vs)
        rw [hempty] at this
        simpa using this
      rw [generalFinalGo]
      have hgrpids : ((results0.filter (fun r => r.totalRank = v)).map
          StudentResult.studentId).Nodup :=
        ((List.filter_sublist results0).map StudentResult.studentId).nodup hnd0
      have hsidmem : res0.studentId
          ∈ (results0.filter (fun r => r.totalRank = v)).map StudentResult.studentId := by
        apply List.mem_map_of_mem
        rw [List.mem_filter]
        exact ⟨hres0, by simp [hv]⟩
      have hestab := assignGroup_rank_establish res0.studentId
        ((results0.filter (fun r => r.totalRank = v)).map StudentResult.studentId)
        acc (cr : ℚ) hndacc hgrpids hsidmem
      have hpres := generalFinalGo_rank_preserve results0 res0.studentId (cr : ℚ) vs
        (cr + (results0.filter (fun r => r.totalRank = v)).length)
        (assignGroup acc ((results0.filter (fun r => r.totalRank = v)).map
          StudentResult.studentId) (cr : ℚ))
        ?hne hestab
      case hne =>
        intro v2 hv2 q hq hcontra
        rw [List.mem_filter] at hq
        have hqeq : q = res0 :=
          List.inj_on_of_nodup_map hnd0 hq.1 hres0 hcontra
        have : q.totalRank = v2 := by simpa using hq.2
        rw [hqeq, hv] at this
        exact absurd (this ▸ hvlt v2 hv2) (lt_irrefl v2)
      intro r hr hid
      have h2 := hpres r hr hid
      rw [h2, hcr, hv]
    · rw [generalFinalGo]
      apply ih (cr + (results0.filter (fun r => r.totalRank = v)).length)
        _ hpw.of_cons ?inv ?align res0 hres0 hvs
      case inv =>
        intro v2 hv2
        have h := hinv v2 (List.mem_cons_of_mem v hv2)
        have hsplit := count_split results0 v v2 vs (hvlt v2 hv2) hvnotvs
        omega
      case align =>
        rw [assignGroup_map_eq (fun r => r.studentId) (fun _ _ => rfl)]
        exact hacc

/-- Counting results below a bound equals counting their rankSums below it. -/
theorem length_filter_lt_map (l : List StudentResult) (t : ℚ) :
    (l.filter (fun x => x.totalRank < t)).length
      = ((l.map StudentResult.totalRank).filter (fun y => y < t)).length := by
  induction l with
  | nil => rfl
  | cons x rest ih =>
    simp only [List.filter_cons, List.map_cons]
    by_cases h : x.totalRank < t
    · rw [if_pos (by simpa using h), if_pos (by simpa using h)]
      simp [ih]
    · rw [if_neg (by simpa using h), if_neg (by simpa using h)]
      exact ih

/-- Claim C4 (amended, confirmed): under the General method with duplicate-free
participant ids, final ranks follow competition (skip) ranking over rankSum groups:
every returned participant's finalRank equals 1 + the number of returned participants
with strictly smaller rankSum.  In particular a tied group of size k at cumulative
position p all receive p and the next distinct group receives p + k, not p + 1. -/
theorem general_final_rank_skip (students : List Student) (scores : List Score)
    (hnd : (students.map Student.id).Nodup) :
    ∀ r ∈ generalCalculateStudentScores students scores,
      r.rank = ((1 + ((generalCalculateStudentScores students scores).filter
        (fun x => x.totalRank < r.totalRank)).length : ℕ) : ℚ) := by
  have hnd0 : ((generalResultsPre students scores).map StudentResult.studentId).Nodup := by
    have : (generalResultsPre students scores).map StudentResult.studentId
        = students.map Student.id := by
      simp [generalResultsPre, resultForWith]
    rw [this]; exact hnd
  have hperm : (List.insertionSort valAsc
      (distinctVals ((generalResultsPre students scores).map StudentResult.totalRank))).Perm
      (distinctVals ((generalResultsPre students scores).map StudentResult.totalRank)) :=
    List.perm_insertionSort valAsc _
  have hvnd : (List.insertionSort valAsc
      (distinctVals ((generalResultsPre students scores).map
        StudentResult.totalRank))).Nodup :=
    hperm.nodup_iff.mpr (distinctVals_nodup _)
  have hsorted := List.sorted_insertionSort valAsc
    (distinctVals ((generalResultsPre students scores).map StudentResult.totalRank))
  have hle : (List.insertionSort valAsc
      (distinctVals ((generalResultsPre students scores).map
        StudentResult.totalRank))).Pairwise (fun a b : ℚ => a ≤ b) :=
    List.Pairwise.imp (fun h => h) hsorted
  have hpwlt : (List.insertionSort valAsc
      (distinctVals ((generalResultsPre students scores).map
        StudentResult.totalRank))).Pairwise (fun a b : ℚ => a < b) :=
    List.Sorted.lt_of_le hle hvnd
  have hvmem : ∀ q ∈ generalResultsPre students scores, q.totalRank
      ∈ List.insertionSort valAsc
        (distinctVals ((generalResultsPre students scores).map StudentResult.totalRank)) := by
    intro q hq
    rw [hperm.mem_iff, mem_distinctVals]
    exact List.mem_map_of_mem StudentResult.totalRank hq
  have hinv : ∀ v ∈ List.insertionSort valAsc
      (distinctVals ((generalResultsPre students scores).map StudentResult.totalRank)),
      1 + ((generalResultsPre students scores).filter
        (fun r => r.totalRank < v ∧ r.totalRank ∈ List.insertionSort valAsc
          (distinctVals ((generalResultsPre students scores).map
            StudentResult.totalRank)))).length
      = 1 + ((generalResultsPre students scores).filter
          (fun r => r.totalRank < v)).length := by
    intro v _
    congr 1
    apply congrArg
    apply List.filter_congr
    intro q hq
    simp [hvmem q hq]
  intro r hr
  have hcorr := generalCalculateStudentScores_map_eq
    (fun q => (q.studentId, q.totalRank)) (fun _ _ => rfl) students scores
  have hmem : (r.studentId, r.totalRank)
      ∈ (generalResultsPre students scores).map (fun q => (q.studentId, q.totalRank)) := by
    rw [← hcorr]
    exact List.mem_map_of_mem _ hr
  obtain ⟨res0, hres0, hfeq⟩ := List.mem_map.mp hmem
  have hid : res0.studentId = r.studentId := congrArg Prod.fst hfeq
  have htr : res0.totalRank = r.totalRank := congrArg Prod.snd hfeq
  have hr2 : r ∈ generalFinalGo (generalResultsPre students scores)
      (List.insertionSort valAsc
        (distinctVals ((generalResultsPre students scores).map StudentResult.totalRank)))
      1 (generalResultsPre students scores) := by
    rw [generalCalculateStudentScores] at hr
    exact hr
  have h := generalFinalGo_rank_char (generalResultsPre students scores) hnd0
    (List.insertionSort valAsc
      (distinctVals ((generalResultsPre students scores).map StudentResult.totalRank)))
    1 (generalResultsPre students scores) hpwlt hinv rfl res0 hres0
    (hvmem res0 hres0) r hr2 hid.symm
  rw [h]
  have hmapt := generalCalculateStudentScores_map_eq StudentResult.totalRank
    (fun _ _ => rfl) students scores
  have hcount : ((generalResultsPre students scores).filter
      (fun x => x.totalRank < res0.totalRank)).length
      = ((generalCalculateStudentScores students scores).filter
        (fun x => x.totalRank < r.totalRank)).length := by
    rw [htr, length_filter_lt_map, length_filter_lt_map, hmapt]
  rw [hcount]

theorem general_final_rank_skip_witness :
    (StudentResult.mk "C" "C" 80 80 [JudgeRank.mk "J1" "J1" 3] 3 3)
      ∈ generalCalculateStudentScores
        [Student.mk "A" "A", Student.mk "B" "B", Student.mk "C" "C"]
        [Score.mk "A" "J1" 90, Score.mk "B" "J1" 90, Score.mk "C" "J1" 80]
    ∧ (StudentResult.mk "C" "C" 80 80 [JudgeRank.mk "J1" "J1" 3] 3 3).rank = 3 := by
  have harr : sortedScoreArray (judgeScoreMap
      [Score.mk "A" "J1" 90, Score.mk "B" "J1" 90, Score.mk "C" "J1" 80] "J1")
      = [("A", 90), ("B", 90), ("C", 80)] := by
    norm_num [judgeScoreMap, sortedScoreArray, upsert, scoreDesc]
  have hrj : generalJudgeRanksFor
      [Score.mk "A" "J1" 90, Score.mk "B" "J1" 90, Score.mk "C" "J1" 80] "J1"
      = [("A", 1), ("B", 1), ("C", 3)] := by
    simp only [generalJudgeRanksFor, harr]
    repeat (first
      | simp [generalRankLoop, distinctVals, valDesc]
      | norm_num [generalRankLoop, distinctVals, valDesc])
  have hU : uniqueJudges [Score.mk "A" "J1" 90, Score.mk "B" "J1" 90, Score.mk "C" "J1" 80]
      = ["J1"] := by
    simp [uniqueJudges]
  have hPre : generalResultsPre
      [Student.mk "A" "A", Student.mk "B" "B", Student.mk "C" "C"]
      [Score.mk "A" "J1" 90, Score.mk "B" "J1" 90, Score.mk "C" "J1" 80]
      = [StudentResult.mk "A" "A" 90 90 [JudgeRank.mk "J1" "J1" 1] 1 0,
         StudentResult.mk "B" "B" 90 90 [JudgeRank.mk "J1" "J1" 1] 1 0,
         StudentResult.mk "C" "C" 80 80 [JudgeRank.mk "J1" "J1" 3] 3 0] := by
    simp only [generalResultsPre, resultForWith, hU, List.map]
    simp only [generalJudgeRankValue]
    simp only [hrj]
    repeat (first | simp [alookup] | norm_num)
  have hcalc : generalCalculateStudentScores
      [Student.mk "A" "A", Student.mk "B" "B", Student.mk "C" "C"]
      [Score.mk "A" "J1" 90, Score.mk "B" "J1" 90, Score.mk "C" "J1" 80]
      = [StudentResult.mk "A" "A" 90 90 [JudgeRank.mk "J1" "J1" 1] 1 1,
         StudentResult.mk "B" "B" 90 90 [JudgeRank.mk "J1" "J1" 1] 1 1,
         StudentResult.mk "C" "C" 80 80 [JudgeRank.mk "J1" "J1" 3] 3 3] := by
    simp only [generalCalculateStudentScores, hPre]
    repeat (first
      | simp [generalFinalGo, assignGroup, setRankFirst, distinctVals, valAsc]
      | norm_num [generalFinalGo, assignGroup, setRankFirst, distinctVals, valAsc])
  have hmem : (StudentResult.mk "C" "C" 80 80 [JudgeRank.mk "J1" "J1" 3] 3 3)
      ∈ generalCalculateStudentScores
        [Student.mk "A" "A", Student.mk "B" "B", Student.mk "C" "C"]
        [Score.mk "A" "J1" 90, Score.mk "B" "J1" 90, Score.mk "C" "J1" 80] := by
    rw [hcalc]; simp
  refine ⟨hmem, ?_⟩
  have h := general_final_rank_skip
    [Student.mk "A" "A", Student.mk "B" "B", Student.mk "C" "C"]
    [Score.mk "A" "J1" 90, Score.mk "B" "J1" 90, Score.mk "C" "J1" 80]
    (by simp) (StudentResult.mk "C" "C" 80 80 [JudgeRank.mk "J1" "J1" 3] 3 3) hmem
  rw [h, hcalc]
  norm_num
